import Mathlib

/-!
# Connect-4 engine: shallow embedding and verification

This file embeds the core of the Connect-4 C program (board model, win
detector, position evaluator, and the three AI strategies) as executable
Lean definitions, and proves the specification claims about them.

Conventions of the embedding:
* The C global `Cell board[ROWS][COLS]` becomes the type `Board`
  (`Fin 6 → Fin 7 → Cell`); mutating functions thread the board explicitly
  and return the final board, so "the function restores the board" is the
  statement that the returned board equals the input board.
* C `int` values (scores, alpha/beta, sentinel rows) are embedded as `Int`;
  the program's scores are small, so no wrap-around occurs and `INT_MIN` /
  `INT_MAX` are embedded as the literal 32-bit constants.
* The win-checker walks the grid with `Int` cursors.  A board read is the
  partial operation `readCell` (`none` out of bounds); every `while` loop of
  the C code tests bounds *before* reading, which is why the checkers can be
  proven to never hit the `none` branch (claim C9).  The loops are embedded
  with a fuel argument (`searchFuel = 7`) that strictly exceeds the longest
  possible walk across a 6×7 grid.
* `rand()` is modelled by an explicit stream of numbers (a `Nat → Nat`
  oracle, or a list that is consumed by retries).
-/

/-- Cell states, from `board.h` (modelled from the header's enum:
`cell_empty`, `cell_player1`, `cell_player2`). -/
inductive Cell : Type where
  | cell_empty : Cell
  | cell_player1 : Cell
  | cell_player2 : Cell
deriving DecidableEq, Repr

export Cell (cell_empty cell_player1 cell_player2)

instance : Fintype Cell where
  elems := {Cell.cell_empty, Cell.cell_player1, Cell.cell_player2}
  complete := by intro x; cases x <;> simp

/-- `#define ROWS 6` -/
def ROWS : Nat := 6

/-- `#define COLS 7` -/
def COLS : Nat := 7

/-- Modelled from the spec: 4-in-a-row wins (`WIN_COUNT` in `board.h`,
which is not among the provided sources). -/
def WIN_COUNT : Nat := 4

/-- 32-bit `INT_MIN` from `<limits.h>`. -/
def INT_MIN : Int := -2147483648

/-- 32-bit `INT_MAX` from `<limits.h>`. -/
def INT_MAX : Int := 2147483647

/-- The global `Cell board[ROWS][COLS]`. -/
def Board : Type := Fin 6 → Fin 7 → Cell

/-- The all-empty board produced by `board_init`. -/
def emptyBoard : Board := fun _ _ => cell_empty

/-- A single assignment `board[r][c] = v` (indices known to be in range). -/
def updateCell (b : Board) (r : Fin 6) (c : Fin 7) (v : Cell) : Board :=
  fun r' c' => if r' = r ∧ c' = c then v else b r' c'

/-- In-bounds predicate for an `Int`-indexed access to the 6×7 grid. -/
def inB (r c : Int) : Prop := 0 ≤ r ∧ r < 6 ∧ 0 ≤ c ∧ c < 7

instance (r c : Int) : Decidable (inB r c) :=
  inferInstanceAs (Decidable (0 ≤ r ∧ r < 6 ∧ 0 ≤ c ∧ c < 7))

/-- Partial board read at `Int` coordinates: `some` iff in bounds.  An
out-of-bounds C access would be undefined behaviour; here it is the `none`
branch, which the checkers are proven never to reach. -/
def readCell (b : Board) (r c : Int) : Option Cell :=
  if h : inB r c then
    some (b ⟨r.toNat, by obtain ⟨h1, h2, _, _⟩ := h; omega⟩
            ⟨c.toNat, by obtain ⟨_, _, h3, h4⟩ := h; omega⟩)
  else none

/-- `GameMove` from `input.h`: a `(row, column)` pair of C `int`s.
`{-1, -1}` is the "no move" sentinel. -/
structure GameMove where
  row : Int
  column : Int
deriving DecidableEq, Repr

/-- Fuel bound for the walk loops: the longest possible walk across the
6×7 grid is 6 steps, so fuel 7 is never exhausted. -/
def searchFuel : Nat := 7

/-- Guard of the downward scan: `temp_row + 1 < ROWS`, applied to the next
cell's row. -/
def gDown : Int → Int → Bool := fun r _ => decide (r < 6)

/-- Guard of the upward scan: `temp_row - 1 >= 0`. -/
def gUp : Int → Int → Bool := fun r _ => decide (0 ≤ r)

/-- Guard of the rightward scan: `temp_col + 1 < COLS`. -/
def gRight : Int → Int → Bool := fun _ c => decide (c < 7)

/-- Guard of the leftward scan: `temp_col - 1 >= 0`. -/
def gLeft : Int → Int → Bool := fun _ c => decide (0 ≤ c)

/-- Guard of the up-right diagonal scan:
`temp_row - 1 >= 0 && temp_col + 1 < COLS`. -/
def gUpRight : Int → Int → Bool := fun r c => decide (0 ≤ r) && decide (c < 7)

/-- Guard of the down-left diagonal scan:
`temp_row + 1 < ROWS && temp_col - 1 >= 0`. -/
def gDownLeft : Int → Int → Bool := fun r c => decide (r < 6) && decide (0 ≤ c)

/-- Guard of the up-left diagonal scan:
`temp_row - 1 >= 0 && temp_col - 1 >= 0`. -/
def gUpLeft : Int → Int → Bool := fun r c => decide (0 ≤ r) && decide (0 ≤ c)

/-- Guard of the down-right diagonal scan:
`temp_row + 1 < ROWS && temp_col + 1 < COLS`. -/
def gDownRight : Int → Int → Bool :=
  fun r c => decide (r < 6) && decide (c < 7)

/-- One direction-walk of the v2 win checker: the C loop
`while (guard(next) && board[next] == player) count++;` counting how many
consecutive `player` cells extend from `(r,c)` in direction `(dr,dc)`
(excluding `(r,c)` itself).  The guard `g` is exactly the C loop's bounds
test — one-sided, checking only the coordinates that move — so a read
(`readCell`, `none` out of bounds) is well-defined only when the walk stays
inside the grid, which claim C9 establishes for in-range start cells. -/
def countDir (b : Board) (p : Cell) (dr dc : Int) (g : Int → Int → Bool) :
    Nat → Int → Int → Option Nat
  | 0, _, _ => some 0
  | fuel + 1, r, c =>
    if g (r + dr) (c + dc) then
      match readCell b (r + dr) (c + dc) with
      | none => none
      | some cell =>
        if cell = p then
          match countDir b p dr dc g fuel (r + dr) (c + dc) with
          | none => none
          | some n => some (n + 1)
        else some 0
    else some 0

/-- `check_vertical` (corrected v2 revision, `game.c:724`): count down from
the placed piece, continue counting up without resetting, win iff the
combined run (placed piece included) reaches `WIN_COUNT`. -/
def check_vertical (b : Board) (last_move : GameMove) (p : Cell) :
    Option Bool :=
  match countDir b p 1 0 gDown searchFuel last_move.row last_move.column with
  | none => none
  | some down =>
    match countDir b p (-1) 0 gUp searchFuel last_move.row
        last_move.column with
    | none => none
    | some up => some (decide (WIN_COUNT ≤ 1 + down + up))

/-- `check_horizontal` (corrected v2 revision, `game.c:766`): count right,
then left, combined run ≥ `WIN_COUNT`. -/
def check_horizontal (b : Board) (last_move : GameMove) (p : Cell) :
    Option Bool :=
  match countDir b p 0 1 gRight searchFuel last_move.row last_move.column with
  | none => none
  | some rightCnt =>
    match countDir b p 0 (-1) gLeft searchFuel last_move.row
        last_move.column with
    | none => none
    | some leftCnt => some (decide (WIN_COUNT ≤ 1 + rightCnt + leftCnt))

/-- `check_diagonal` (corrected v2 revision, `game.c:813`): the `/` axis
(up-right `(-1,+1)` then down-left `(+1,-1)`), then the `\` axis
(up-left `(-1,-1)` then down-right `(+1,+1)`); each axis combines its two
directions into one run. -/
def check_diagonal (b : Board) (last_move : GameMove) (p : Cell) :
    Option Bool :=
  match countDir b p (-1) 1 gUpRight searchFuel last_move.row
      last_move.column with
  | none => none
  | some upRight =>
    match countDir b p 1 (-1) gDownLeft searchFuel last_move.row
        last_move.column with
    | none => none
    | some downLeft =>
      if WIN_COUNT ≤ 1 + upRight + downLeft then some true
      else
        match countDir b p (-1) (-1) gUpLeft searchFuel last_move.row
            last_move.column with
        | none => none
        | some upLeft =>
          match countDir b p 1 1 gDownRight searchFuel last_move.row
              last_move.column with
          | none => none
          | some downRight =>
            some (decide (WIN_COUNT ≤ 1 + upLeft + downRight))

/-- `check_winner` (corrected v2 revision, `game.c:894`): vertical, then
horizontal, then diagonal, returning on the first success. -/
def check_winner (b : Board) (last_move : GameMove) (p : Cell) :
    Option Bool :=
  match check_vertical b last_move p with
  | none => none
  | some v =>
    if v then some true
    else
      match check_horizontal b last_move p with
      | none => none
      | some h =>
        if h then some true
        else check_diagonal b last_move p

/-- One direction-walk of the v1 (historical) win checker: the C loop
`while (in-bounds(next) && board[next] == player && count < WIN_COUNT)`,
carrying the running `count`. -/
def countDirCapped (b : Board) (p : Cell) (dr dc : Int)
    (g : Int → Int → Bool) : Nat → Int → Int → Nat → Option Nat
  | 0, _, _, count => some count
  | fuel + 1, r, c, count =>
    if g (r + dr) (c + dc) then
      match readCell b (r + dr) (c + dc) with
      | none => none
      | some cell =>
        if cell = p ∧ count < WIN_COUNT then
          countDirCapped b p dr dc g fuel (r + dr) (c + dc) (count + 1)
        else some count
    else some count

/-- `check_vertical` (historical v1 revision, `game.c:257`): each direction
is counted separately starting from 1 and compared with `== WIN_COUNT`;
the two directions are *not* combined. -/
def check_vertical_v1 (b : Board) (last_move : GameMove) (p : Cell) :
    Option Bool :=
  match countDirCapped b p 1 0 gDown searchFuel last_move.row
      last_move.column 1 with
  | none => none
  | some c1 =>
    if c1 = WIN_COUNT then some true
    else
      match countDirCapped b p (-1) 0 gUp searchFuel last_move.row
          last_move.column 1 with
      | none => none
      | some c2 => some (decide (c2 = WIN_COUNT))

/-- `check_horizontal` (historical v1 revision, `game.c:289`). -/
def check_horizontal_v1 (b : Board) (last_move : GameMove) (p : Cell) :
    Option Bool :=
  match countDirCapped b p 0 1 gRight searchFuel last_move.row
      last_move.column 1 with
  | none => none
  | some c1 =>
    if c1 = WIN_COUNT then some true
    else
      match countDirCapped b p 0 (-1) gLeft searchFuel last_move.row
          last_move.column 1 with
      | none => none
      | some c2 => some (decide (c2 = WIN_COUNT))

/-- `check_diagonal` (historical v1 revision, `game.c:321`): four separate
one-direction counts, each reset to 1 and compared with `== WIN_COUNT`. -/
def check_diagonal_v1 (b : Board) (last_move : GameMove) (p : Cell) :
    Option Bool :=
  match countDirCapped b p 1 1 gDownRight searchFuel last_move.row
      last_move.column 1 with
  | none => none
  | some c1 =>
    if c1 = WIN_COUNT then some true
    else
      match countDirCapped b p (-1) (-1) gUpLeft searchFuel last_move.row
          last_move.column 1 with
      | none => none
      | some c2 =>
        if c2 = WIN_COUNT then some true
        else
          match countDirCapped b p 1 (-1) gDownLeft searchFuel last_move.row
              last_move.column 1 with
          | none => none
          | some c3 =>
            if c3 = WIN_COUNT then some true
            else
              match countDirCapped b p (-1) 1 gUpRight searchFuel
                  last_move.row last_move.column 1 with
              | none => none
              | some c4 => some (decide (c4 = WIN_COUNT))

/-- `check_winner` (historical v1 revision, `game.c:382`). -/
def check_winner_v1 (b : Board) (last_move : GameMove) (p : Cell) :
    Option Bool :=
  match check_vertical_v1 b last_move p with
  | none => none
  | some v =>
    if v then some true
    else
      match check_horizontal_v1 b last_move p with
      | none => none
      | some h =>
        if h then some true
        else check_diagonal_v1 b last_move p

/-- The row scan shared by `input_player_move`, `find_winning_move`,
`make_move`, `ai_easy_move` and the medium/hard fallbacks:
`for (r = 5; r >= 0; r--) if (board[r][col] == cell_empty) break;`
unrolled.  Returns the bottom-most empty row of the column, `none` if the
column is full. -/
def lowestEmptyRow (b : Board) (c : Fin 7) : Option (Fin 6) :=
  if b 5 c = cell_empty then some 5
  else if b 4 c = cell_empty then some 4
  else if b 3 c = cell_empty then some 3
  else if b 2 c = cell_empty then some 2
  else if b 1 c = cell_empty then some 1
  else if b 0 c = cell_empty then some 0
  else none

/-- `get_valid_moves` (`ai.c`): the columns whose top cell (row 0) is empty,
in ascending order. -/
def get_valid_moves (b : Board) : List (Fin 7) :=
  (List.finRange 7).filter fun c => decide (b 0 c = cell_empty)

/-- `make_move` (`ai.c:451`): gravity drop for the minimax simulation.
Returns the row where the piece landed and the updated board, or `(-1, b)`
if the column is full. -/
def make_move (b : Board) (col : Fin 7) (p : Cell) : Int × Board :=
  match lowestEmptyRow b col with
  | some r => ((r.val : Int), updateCell b r col p)
  | none => (-1, b)

/-- `undo_move` (`ai.c:473`): `board[row][col] = cell_empty`.  The guard
totalises the embedding; `undo_move` is only ever called with the row
returned by a successful `make_move`. -/
def undo_move (b : Board) (row : Int) (col : Fin 7) : Board :=
  if h : 0 ≤ row ∧ row < 6 then
    updateCell b ⟨row.toNat, by omega⟩ col cell_empty
  else b

/-- Total board access at `Nat` indices used by the evaluator's loops; all
loop bounds keep the indices in range, so the default is never produced. -/
def cellN (b : Board) (r c : Nat) : Cell :=
  if h : r < 6 ∧ c < 7 then b ⟨r, h.1⟩ ⟨c, h.2⟩ else cell_empty

/-- The three counters of one 4-cell window scan in `evaluate_position`:
`(player_count, opponent_count, empty_count)`. -/
def windowCounts (p opp : Cell) (l : List Cell) : Nat × Nat × Nat :=
  l.foldl
    (fun acc cell =>
      if cell = p then (acc.1 + 1, acc.2.1, acc.2.2)
      else if cell = opp then (acc.1, acc.2.1 + 1, acc.2.2)
      else (acc.1, acc.2.1, acc.2.2 + 1))
    (0, 0, 0)

/-- The per-window scoring of `evaluate_position` (`ai.c:258`): the player
`if`-chain plus the opponent `if`-chain. -/
def windowScoreSrc (p opp : Cell) (l : List Cell) : Int :=
  let pc := (windowCounts p opp l).1
  let oc := (windowCounts p opp l).2.1
  let ec := (windowCounts p opp l).2.2
  (if pc = 4 then 100
   else if pc = 3 ∧ ec = 1 then 5
   else if pc = 2 ∧ ec = 2 then 2
   else 0)
  + (if oc = 4 then -100
     else if oc = 3 ∧ ec = 1 then -4
     else 0)

/-- `evaluate_position` (`ai.c:258`): accumulate the window scores of all
horizontal, vertical and both diagonal 4-cell windows, plus the +3 center
bonus per player piece in column 3. -/
def evaluate_position (b : Board) (p : Cell) : Int :=
  let opponent := if p = cell_player1 then cell_player2 else cell_player1
  let horiz := ∑ r ∈ Finset.range 6, ∑ c ∈ Finset.range 4,
    windowScoreSrc p opponent
      [cellN b r c, cellN b r (c+1), cellN b r (c+2), cellN b r (c+3)]
  let vert := ∑ c ∈ Finset.range 7, ∑ r ∈ Finset.range 3,
    windowScoreSrc p opponent
      [cellN b r c, cellN b (r+1) c, cellN b (r+2) c, cellN b (r+3) c]
  let diagPos := ∑ r ∈ Finset.range 3, ∑ c ∈ Finset.range 4,
    windowScoreSrc p opponent
      [cellN b r c, cellN b (r+1) (c+1), cellN b (r+2) (c+2),
       cellN b (r+3) (c+3)]
  let diagNeg := ∑ r ∈ Finset.range 3, ∑ c ∈ Finset.range 4,
    windowScoreSrc p opponent
      [cellN b (r+3) c, cellN b (r+2) (c+1), cellN b (r+1) (c+2),
       cellN b r (c+3)]
  let center := ∑ r ∈ Finset.range 6,
    (if cellN b r 3 = p then (3 : Int) else 0)
  horiz + vert + diagPos + diagNeg + center

/-- Number of occurrences of a cell value in a window. -/
def cellCount (x : Cell) (l : List Cell) : Nat :=
  (l.filter fun y => decide (y = x)).length

/-- Modelled from the spec (§4.3 table / claim C3): classify a window by its
player / opponent / empty counts; windows mixing both players score 0. -/
def windowScoreSpec (p opp : Cell) (l : List Cell) : Int :=
  let pc := cellCount p l
  let oc := cellCount opp l
  let ec := cellCount cell_empty l
  if 0 < pc ∧ 0 < oc then 0
  else if pc = 4 then 100
  else if pc = 3 ∧ ec = 1 then 5
  else if pc = 2 ∧ ec = 2 then 2
  else if oc = 4 then -100
  else if oc = 3 ∧ ec = 1 then -4
  else 0

/-- Modelled from the spec (§4.3 / claim C3): the signed sum of the
spec-classified scores of every contiguous 4-cell window that fits on the
board along rows, columns and both diagonals, plus 3 per player piece in
the center column (index 3). -/
def evaluate_position_spec (b : Board) (p : Cell) : Int :=
  let opp := if p = cell_player1 then cell_player2 else cell_player1
  let horiz := ∑ r ∈ Finset.range 6, ∑ c ∈ Finset.range 4,
    windowScoreSpec p opp
      [cellN b r c, cellN b r (c+1), cellN b r (c+2), cellN b r (c+3)]
  let vert := ∑ c ∈ Finset.range 7, ∑ r ∈ Finset.range 3,
    windowScoreSpec p opp
      [cellN b r c, cellN b (r+1) c, cellN b (r+2) c, cellN b (r+3) c]
  let diagDR := ∑ r ∈ Finset.range 3, ∑ c ∈ Finset.range 4,
    windowScoreSpec p opp
      [cellN b r c, cellN b (r+1) (c+1), cellN b (r+2) (c+2),
       cellN b (r+3) (c+3)]
  let diagUR := ∑ r ∈ Finset.range 3, ∑ c ∈ Finset.range 4,
    windowScoreSpec p opp
      [cellN b (r+3) c, cellN b (r+2) (c+1), cellN b (r+1) (c+2),
       cellN b r (c+3)]
  let center := 3 * ((Finset.univ.filter fun r : Fin 6 => b r 3 = p).card : Int)
  horiz + vert + diagDR + diagUR + center

/-- `is_game_over` (`ai.c:388`): some occupied cell completes a win, or the
top row is full. -/
def is_game_over (b : Board) : Bool :=
  ((List.finRange 6).any fun r => (List.finRange 7).any fun c =>
    decide (b r c ≠ cell_empty) &&
      (check_winner b ⟨(r.val : Int), (c.val : Int)⟩ (b r c)).getD false)
  || ((List.finRange 7).all fun c => decide (b 0 c ≠ cell_empty))

/-- The column scan of `find_winning_move` (`ai.c:27`), threading the board:
for each column, trial-place at the lowest empty row, check the win,
undo, and return the first winning move. -/
def find_winning_move_go (p : Cell) : List (Fin 7) → Board → GameMove × Board
  | [], b => (⟨-1, -1⟩, b)
  | c :: rest, b =>
    match lowestEmptyRow b c with
    | none => find_winning_move_go p rest b
    | some r =>
      let b1 := updateCell b r c p
      let mv : GameMove := ⟨(r.val : Int), (c.val : Int)⟩
      let win := (check_winner b1 mv p).getD false
      let b2 := updateCell b1 r c cell_empty
      if win then (mv, b2) else find_winning_move_go p rest b2

/-- `find_winning_move` (`ai.c:27`): first column (ascending) whose gravity
drop completes 4-in-a-row for `p`; sentinel `{-1,-1}` if none. -/
def find_winning_move (b : Board) (p : Cell) : GameMove × Board :=
  find_winning_move_go p (List.finRange 7) b

/-- `count_threats` (`ai.c:64`): temporarily place `p` at `(row, col)`,
count the combined horizontal and vertical runs through it, award each run
of length ≥ 2, and undo the placement.  (`countDir` from an in-range start
never returns `none`, so `getD 0` is inert.) -/
def count_threats (b : Board) (row : Fin 6) (col : Fin 7) (p : Cell) :
    Int × Board :=
  let b1 := updateCell b row col p
  let hcount :=
    1 + (countDir b1 p 0 1 gRight searchFuel (row.val : Int)
          (col.val : Int)).getD 0
      + (countDir b1 p 0 (-1) gLeft searchFuel (row.val : Int)
          (col.val : Int)).getD 0
  let threats1 : Int := if 2 ≤ hcount then (hcount : Int) else 0
  let vcount :=
    1 + (countDir b1 p 1 0 gDown searchFuel (row.val : Int)
          (col.val : Int)).getD 0
      + (countDir b1 p (-1) 0 gUp searchFuel (row.val : Int)
          (col.val : Int)).getD 0
  let threats := threats1 + (if 2 ≤ vcount then (vcount : Int) else 0)
  (threats, updateCell b1 row col cell_empty)

/-- The column scan of `find_best_strategic_move` (`ai.c:113`). -/
def strategic_go (p : Cell) :
    List (Fin 7) → Board → Int → GameMove → GameMove × Board
  | [], b, _, best => (best, b)
  | c :: rest, b, best_score, best =>
    match lowestEmptyRow b c with
    | none => strategic_go p rest b best_score best
    | some r =>
      let tb := count_threats b r c p
      let bonus : Int :=
        if c.val = 3 then 3
        else if c.val = 2 ∨ c.val = 4 then 2
        else if c.val = 1 ∨ c.val = 5 then 1
        else 0
      let score := tb.1 + bonus
      if best_score < score then
        strategic_go p rest tb.2 score ⟨(r.val : Int), (c.val : Int)⟩
      else strategic_go p rest tb.2 best_score best

/-- `find_best_strategic_move` (`ai.c:113`): highest threat score plus
center bonus, first column on ties, sentinel if no cell is free. -/
def find_best_strategic_move (b : Board) (p : Cell) : GameMove × Board :=
  strategic_go p (List.finRange 7) b (-1) ⟨-1, -1⟩

/-- `ai_easy_move` (`ai.c:149`): pick `rand() % 7`; if that column is full,
retry recursively with the next random number.  The stream of `rand()`
results is explicit; an exhausted stream (`none`) models a run that is
still retrying. -/
def ai_easy_move (b : Board) : List Nat → Option GameMove
  | [] => none
  | k :: rest =>
    let column : Fin 7 := ⟨k % 7, Nat.mod_lt _ (by omega)⟩
    match lowestEmptyRow b column with
    | some row => some ⟨(row.val : Int), (column.val : Int)⟩
    | none => ai_easy_move b rest

/-- The initial `center_preference` array `{3, 2, 4, 1, 5, 0, 6}` of
`ai_medium_move`. -/
def center_preference : Fin 7 → Fin 7 := ![3, 2, 4, 1, 5, 0, 6]

/-- One `temp = a[i]; a[i] = a[j]; a[j] = temp;` swap. -/
def swapIdx (a : Fin 7 → Fin 7) (i j : Fin 7) : Fin 7 → Fin 7 :=
  Function.update (Function.update a i (a j)) j (a i)

/-- The shuffle loop of `ai_medium_move`: for `i = 0..6` swap entry `i`
with a random entry.  `rng (i+1)` models the `rand()` call of iteration
`i` (`rng 0` is reserved for the earlier 70% draw). -/
def shuffledPreference (rng : Nat → Nat) : Fin 7 → Fin 7 :=
  (List.finRange 7).foldl
    (fun a i => swapIdx a i ⟨rng (i.val + 1) % 7, Nat.mod_lt _ (by omega)⟩)
    center_preference

/-- Priority 4 of `ai_medium_move`: first column of the shuffled preference
list that is not full, at its lowest empty row.  The C fallback
`return ai_easy_move()` is reachable only when every column is full (the
scan below fails); it is modelled as the sentinel. -/
def tier4_move (b : Board) (a : Fin 7 → Fin 7) : GameMove :=
  match (List.finRange 7).findSome? (fun i =>
      (lowestEmptyRow b (a i)).map
        (fun r => (⟨(r.val : Int), ((a i).val : Int)⟩ : GameMove))) with
  | some mv => mv
  | none => ⟨-1, -1⟩

/-- `ai_medium_move` (`ai.c:183`): win, block, 70% strategic, then the
shuffled center-biased fallback.  `rng 0 % 100` models the `rand() % 100`
draw. -/
def ai_medium_move (b : Board) (rng : Nat → Nat) : GameMove :=
  let w := find_winning_move b cell_player2
  if w.1.row ≠ -1 then w.1
  else
    let blk := find_winning_move w.2 cell_player1
    if blk.1.row ≠ -1 then blk.1
    else
      let s := find_best_strategic_move blk.2 cell_player2
      if s.1.row ≠ -1 ∧ rng 0 % 100 < 70 then s.1
      else tier4_move s.2 (shuffledPreference rng)

/-- `opponent = (player == cell_player1) ? cell_player2 : cell_player1`. -/
def opponentOf (p : Cell) : Cell :=
  if p = cell_player1 then cell_player2 else cell_player1

/-- The maximizing loop of `minimax` (`ai.c:552`): place, recurse, undo,
track `max_eval` and `alpha`, and cut off once `beta ≤ alpha`.  `rec` is
the recursive call at depth − 1. -/
def abMaxLoop (rec : Board → Int → Int → Bool → Cell → Int × Board)
    (p : Cell) (beta : Int) :
    List (Fin 7) → Board → Int → Int → Int × Board
  | [], b, _, max_eval => (max_eval, b)
  | col :: rest, b, alpha, max_eval =>
    let rb := make_move b col p
    let er := rec rb.2 alpha beta false p
    let b2 := undo_move er.2 rb.1 col
    let max_eval' := max max_eval er.1
    let alpha' := max alpha er.1
    if beta ≤ alpha' then (max_eval', b2)
    else abMaxLoop rec p beta rest b2 alpha' max_eval'

/-- The minimizing loop of `minimax` (`ai.c:586`): places the *opponent's*
piece, recurses with `maximizing = 1`, tracks `min_eval` and `beta`. -/
def abMinLoop (rec : Board → Int → Int → Bool → Cell → Int × Board)
    (p opp : Cell) (alpha : Int) :
    List (Fin 7) → Board → Int → Int → Int × Board
  | [], b, _, min_eval => (min_eval, b)
  | col :: rest, b, beta, min_eval =>
    let rb := make_move b col opp
    let er := rec rb.2 alpha beta true p
    let b2 := undo_move er.2 rb.1 col
    let min_eval' := min min_eval er.1
    let beta' := min beta er.1
    if beta' ≤ alpha then (min_eval', b2)
    else abMinLoop rec p opp alpha rest b2 beta' min_eval'

/-- `minimax` (`ai.c:532`): alpha-beta minimax, recursing on `depth`,
threading the board (which each place/undo pair restores). -/
def minimax : Nat → Board → Int → Int → Bool → Cell → Int × Board
  | 0, b, _, _, _, p => (evaluate_position b p, b)
  | depth + 1, b, alpha, beta, maximizing, p =>
    if is_game_over b then (evaluate_position b p, b)
    else
      let valid_cols := get_valid_moves b
      if valid_cols.isEmpty then (0, b)
      else if maximizing then
        abMaxLoop (minimax depth) p beta valid_cols b alpha INT_MIN
      else
        abMinLoop (minimax depth) p (opponentOf p) alpha valid_cols b beta
          INT_MAX

/-- Modelled from the spec (§8: "exhaustive minimax (no pruning) at equal
depth"): the maximizing fold with no alpha-beta state. -/
def npMaxLoop (rec : Board → Bool → Cell → Int) (p : Cell) :
    List (Fin 7) → Board → Int → Int
  | [], _, acc => acc
  | col :: rest, b, acc =>
    npMaxLoop rec p rest b (max acc (rec (make_move b col p).2 false p))

/-- Modelled from the spec: the minimizing fold with no alpha-beta state. -/
def npMinLoop (rec : Board → Bool → Cell → Int) (p opp : Cell) :
    List (Fin 7) → Board → Int → Int
  | [], _, acc => acc
  | col :: rest, b, acc =>
    npMinLoop rec p opp rest b (min acc (rec (make_move b col opp).2 true p))

/-- Modelled from the spec (§8): exhaustive minimax with no pruning, same
terminal conditions, scan order and tie handling as `minimax`. -/
def minimaxNoPrune : Nat → Board → Bool → Cell → Int
  | 0, b, _, p => evaluate_position b p
  | depth + 1, b, maximizing, p =>
    if is_game_over b then evaluate_position b p
    else
      let valid_cols := get_valid_moves b
      if valid_cols.isEmpty then 0
      else if maximizing then
        npMaxLoop (minimaxNoPrune depth) p valid_cols b INT_MIN
      else
        npMinLoop (minimaxNoPrune depth) p (opponentOf p) valid_cols b INT_MAX

/-- The search loop of `ai_hard_move` (`ai.c:694`): for each valid column,
place, score with `minimax(depth, INT_MIN, INT_MAX, 0, cell_player2)`,
undo, and keep the strictly best column (first on ties, default 3). -/
def hardSelectLoop (depth : Nat) :
    List (Fin 7) → Board → Int → Fin 7 → Fin 7 × Board
  | [], b, _, best_col => (best_col, b)
  | col :: rest, b, best_score, best_col =>
    let rb := make_move b col cell_player2
    let sr := minimax depth rb.2 INT_MIN INT_MAX false cell_player2
    let b2 := undo_move sr.2 rb.1 col
    if best_score < sr.1 then hardSelectLoop depth rest b2 sr.1 col
    else hardSelectLoop depth rest b2 best_score best_col

/-- The column chosen by `ai_hard_move`'s minimax search (`depth` is the
`SEARCH_DEPTH - 1` passed to `minimax`; the game uses 4). -/
def hard_best_col (b : Board) (depth : Nat) : Fin 7 :=
  (hardSelectLoop depth (get_valid_moves b) b INT_MIN 3).1

/-- Modelled from the spec (§8): the same selection loop scored by
exhaustive no-pruning minimax. -/
def hardSelectLoopNP (depth : Nat) :
    List (Fin 7) → Board → Int → Fin 7 → Fin 7
  | [], _, _, best_col => best_col
  | col :: rest, b, best_score, best_col =>
    let s := minimaxNoPrune depth (make_move b col cell_player2).2 false
      cell_player2
    if best_score < s then hardSelectLoopNP depth rest b s col
    else hardSelectLoopNP depth rest b best_score best_col

/-- Modelled from the spec (§8): the exhaustive-minimax column choice. -/
def hard_best_col_exhaustive (b : Board) (depth : Nat) : Fin 7 :=
  hardSelectLoopNP depth (get_valid_moves b) b INT_MIN 3

/-- The four axes through a cell: vertical, horizontal, and the two
diagonals. -/
def dirList : List (Int × Int) := [(1, 0), (0, 1), (1, 1), (1, -1)]

/-- Spec-side: the 4 cells starting at `(r,c)` along `(dr,dc)` are all in
bounds and hold `p`. -/
def windowAll (b : Board) (p : Cell) (r c dr dc : Int) : Bool :=
  (List.range 4).all fun i =>
    decide (readCell b (r + (i : Int) * dr) (c + (i : Int) * dc) = some p)

/-- Spec-side (§4.2 / claim C1): some axis through `(r,c)` carries 4
consecutive cells of `p`'s colour including `(r,c)` itself. -/
def fourThrough (b : Board) (r c : Int) (p : Cell) : Bool :=
  dirList.any fun d => (List.range 4).any fun k =>
    windowAll b p (r - (k : Int) * d.1) (c - (k : Int) * d.2) d.1 d.2

/-- Spec-side: a 4-in-a-row of `p` exists somewhere on the board. -/
def existsFour (b : Board) (p : Cell) : Bool :=
  (List.range 6).any fun r => (List.range 7).any fun c =>
    dirList.any fun d => windowAll b p (r : Int) (c : Int) d.1 d.2

/-- Player of the 0-based ply `n`: Player 1 moves first. -/
def plyPlayer (n : Nat) : Cell :=
  if n % 2 = 0 then cell_player1 else cell_player2

/-- Apply a list of column choices as alternating legal gravity drops,
starting at ply `n`; `none` if some chosen column is full. -/
def playMovesFrom : Board → Nat → List (Fin 7) → Option Board
  | b, _, [] => some b
  | b, n, c :: rest =>
    match lowestEmptyRow b c with
    | some r => playMovesFrom (updateCell b r c (plyPlayer n)) (n + 1) rest
    | none => none

/-- Boards reachable by alternating legal drops from the empty board. -/
def playMoves (ms : List (Fin 7)) : Option Board :=
  playMovesFrom emptyBoard 0 ms

/-- The gated detector call of the game loops (`game.c:443` etc.):
`if (count_moves > 6) winner = check_winner(move, player);` -- `winner`
stays 0 on earlier plies. -/
def gatedWinnerCheck (count_moves : Nat) (b : Board) (mv : GameMove)
    (p : Cell) : Bool :=
  if 6 < count_moves then (check_winner b mv p).getD false else false

/-- Number of cells holding `p`. -/
def pieceCount (b : Board) (p : Cell) : Nat :=
  (Finset.univ.filter fun rc : Fin 6 × Fin 7 => b rc.1 rc.2 = p).card

/-- How many of the plies `n, n+1, ..., n+len-1` belong to player `p`. -/
def plyCountOf (p : Cell) : Nat → Nat → Nat
  | _, 0 => 0
  | n, len + 1 => (if plyPlayer n = p then 1 else 0) + plyCountOf p (n + 1) len

/-- Spec-side: the run through `(r,c)` along the axis `(dr,dc)` contains a
full 4-window: some window starting `k` steps back (`k < 4`) is all `p`. -/
def axisWin (b : Board) (p : Cell) (r c dr dc : Int) : Bool :=
  (List.range 4).any fun k =>
    windowAll b p (r - (k : Int) * dr) (c - (k : Int) * dc) dr dc

instance : DecidableEq Board :=
  inferInstanceAs (DecidableEq (Fin 6 → Fin 7 → Cell))

/-- The 7-ply trace `0,0,1,1,3,3,2` (0-based columns): Player 1 builds
`X X _ X` on the bottom row and then fills the gap at `(5,2)`. -/
def c1_trace : List (Fin 7) := [0, 0, 1, 1, 3, 3, 2]

/-- The board reached by `c1_trace`: Player 1 on the whole bottom row
`(5,0)..(5,3)`, Player 2 at `(4,0)`, `(4,1)`, `(4,3)`. -/
def c1_board : Board := fun r c =>
  if r = 5 ∧ (c = 0 ∨ c = 1 ∨ c = 2 ∨ c = 3) then cell_player1
  else if r = 4 ∧ (c = 0 ∨ c = 1 ∨ c = 3) then cell_player2
  else cell_empty

/-- The same board as an explicit placement chain (the intermediate form
`playMoves` computes). -/
def c1_chain : Board :=
  updateCell (updateCell (updateCell (updateCell (updateCell (updateCell
    (updateCell emptyBoard 5 0 cell_player1) 4 0 cell_player2)
    5 1 cell_player1) 4 1 cell_player2) 5 3 cell_player1)
    4 3 cell_player2) 5 2 cell_player1

/-- A board whose column 0 is completely full (all Player 1). -/
def c4_full_board : Board := fun _ c => if c = 0 then cell_player1 else cell_empty

/-- Spec-side: dropping into column `c` (at its lowest empty row) completes
a 4-in-a-row for `p` — the situation `find_winning_move` detects. -/
def winsAt (b : Board) (p : Cell) (c : Fin 7) : Bool :=
  match lowestEmptyRow b c with
  | none => false
  | some r =>
    fourThrough (updateCell b r c p) (r.val : Int) (c.val : Int) p

/-- A board where the AI (Player 2) has three in a column: dropping in
column 0 wins. -/
def c6_board : Board := fun r c =>
  if c = 0 ∧ (r = 5 ∨ r = 4 ∨ r = 3) then cell_player2 else cell_empty

/-- A 6-ply trace: Player 1 stacks column 0, Player 2 stacks column 1. -/
def c8_trace : List (Fin 7) := [0, 1, 0, 1, 0, 1]

/-- The board reached by `c8_trace`: three Player-1 pieces in column 0 and
three Player-2 pieces in column 1. -/
def c8_board : Board :=
  updateCell (updateCell (updateCell (updateCell (updateCell (updateCell
    emptyBoard 5 0 cell_player1) 5 1 cell_player2) 4 0 cell_player1)
    4 1 cell_player2) 3 0 cell_player1) 3 1 cell_player2

/-! ## Basic lemmas on board access and the row scan -/

theorem inB_fin (r : Fin 6) (c : Fin 7) : inB (r.val : Int) (c.val : Int) :=
  ⟨Int.natCast_nonneg _, by exact_mod_cast r.isLt,
   Int.natCast_nonneg _, by exact_mod_cast c.isLt⟩

theorem readCell_fin (b : Board) (r : Fin 6) (c : Fin 7) :
    readCell b (r.val : Int) (c.val : Int) = some (b r c) := by
  unfold readCell
  rw [dif_pos (inB_fin r c)]
  congr 1

theorem inB_of_readCell {b : Board} {r c : Int} {x : Cell}
    (h : readCell b r c = some x) : inB r c := by
  unfold readCell at h
  by_cases hin : inB r c
  · exact hin
  · rw [dif_neg hin] at h; cases h

theorem readCell_isSome_of_inB {b : Board} {r c : Int} (h : inB r c) :
    (readCell b r c).isSome := by
  unfold readCell; rw [dif_pos h]; rfl

theorem readCell_some_elim {b : Board} {r c : Int} {x : Cell}
    (h : readCell b r c = some x) :
    ∃ (rf : Fin 6) (cf : Fin 7),
      (rf.val : Int) = r ∧ (cf.val : Int) = c ∧ b rf cf = x := by
  have hin := inB_of_readCell h
  obtain ⟨h1, h2, h3, h4⟩ := hin
  refine ⟨⟨r.toNat, by omega⟩, ⟨c.toNat, by omega⟩, by simp; omega,
    by simp; omega, ?_⟩
  unfold readCell at h
  rw [dif_pos ⟨h1, h2, h3, h4⟩] at h
  exact Option.some.inj h

theorem updateCell_self (b : Board) (r : Fin 6) (c : Fin 7) (v : Cell) :
    updateCell b r c v r c = v := by simp [updateCell]

theorem updateCell_ne (b : Board) (r : Fin 6) (c : Fin 7) (v : Cell)
    {r' : Fin 6} {c' : Fin 7} (h : ¬(r' = r ∧ c' = c)) :
    updateCell b r c v r' c' = b r' c' := by simp [updateCell, h]

theorem updateCell_restore (b : Board) (r : Fin 6) (c : Fin 7) (v : Cell) :
    updateCell (updateCell b r c v) r c (b r c) = b := by
  funext r' c'
  by_cases h : r' = r ∧ c' = c
  · obtain ⟨rfl, rfl⟩ := h; simp [updateCell]
  · simp [updateCell, h]

theorem updateCell_undo {b : Board} {r : Fin 6} {c : Fin 7} (v : Cell)
    (h : b r c = cell_empty) :
    updateCell (updateCell b r c v) r c cell_empty = b := by
  have := updateCell_restore b r c v
  rwa [h] at this

theorem countDir_isSome (b : Board) (p : Cell) (dr dc : Int)
    (g : Int → Int → Bool)
    (hg : ∀ r c : Int, inB r c → g (r + dr) (c + dc) = true →
      inB (r + dr) (c + dc)) :
    ∀ (fuel : Nat) (r c : Int), inB r c →
      (countDir b p dr dc g fuel r c).isSome := by
  intro fuel
  induction fuel with
  | zero => intro r c _; simp [countDir]
  | succ n ih =>
    intro r c h
    by_cases hgg : g (r + dr) (c + dc) = true
    · have hin := hg r c h hgg
      obtain ⟨x, hx⟩ := Option.isSome_iff_exists.mp (readCell_isSome_of_inB
        (b := b) hin)
      by_cases hxp : x = p
      · obtain ⟨m, hm⟩ := Option.isSome_iff_exists.mp (ih (r + dr) (c + dc)
          hin)
        simp [countDir, hgg, hx, hxp, hm]
      · simp [countDir, hgg, hx, hxp]
    · simp [countDir, hgg]

theorem lowestEmptyRow_some {b : Board} {c : Fin 7} {r : Fin 6}
    (h : lowestEmptyRow b c = some r) :
    b r c = cell_empty ∧ ∀ r' : Fin 6, r < r' → b r' c ≠ cell_empty := by
  unfold lowestEmptyRow at h
  split_ifs at h with h5 h4 h3 h2 h1 h0 <;> cases h <;>
    refine ⟨by assumption, ?_⟩ <;> intro r' hr' <;> fin_cases r' <;>
      first
        | exact absurd hr' (by decide)
        | assumption

theorem lowestEmptyRow_eq_none_iff {b : Board} {c : Fin 7} :
    lowestEmptyRow b c = none ↔ ∀ r : Fin 6, b r c ≠ cell_empty := by
  unfold lowestEmptyRow
  split_ifs with h5 h4 h3 h2 h1 h0
  · exact iff_of_false (by simp) (fun hall => hall 5 h5)
  · exact iff_of_false (by simp) (fun hall => hall 4 h4)
  · exact iff_of_false (by simp) (fun hall => hall 3 h3)
  · exact iff_of_false (by simp) (fun hall => hall 2 h2)
  · exact iff_of_false (by simp) (fun hall => hall 1 h1)
  · exact iff_of_false (by simp) (fun hall => hall 0 h0)
  · refine iff_of_true rfl ?_
    intro r; fin_cases r <;> assumption

theorem lowestEmptyRow_isSome_of_empty {b : Board} {c : Fin 7} {r : Fin 6}
    (h : b r c = cell_empty) : ∃ r', lowestEmptyRow b c = some r' := by
  cases h' : lowestEmptyRow b c with
  | none => exact absurd h (lowestEmptyRow_eq_none_iff.mp h' r)
  | some r' => exact ⟨r', rfl⟩

/-! ## Claim C9: all checker accesses stay inside the 6×7 grid -/

theorem check_vertical_isSome (b : Board) (mv : GameMove) (p : Cell)
    (h : inB mv.row mv.column) : (check_vertical b mv p).isSome := by
  obtain ⟨d, hd⟩ := Option.isSome_iff_exists.mp
    (countDir_isSome b p 1 0 gDown
      (by intro r c hrc hg; simp [gDown] at hg; unfold inB at hrc ⊢; omega)
      searchFuel mv.row mv.column h)
  obtain ⟨u, hu⟩ := Option.isSome_iff_exists.mp
    (countDir_isSome b p (-1) 0 gUp
      (by intro r c hrc hg; simp [gUp] at hg; unfold inB at hrc ⊢; omega)
      searchFuel mv.row mv.column h)
  simp [check_vertical, hd, hu]

theorem check_horizontal_isSome (b : Board) (mv : GameMove) (p : Cell)
    (h : inB mv.row mv.column) : (check_horizontal b mv p).isSome := by
  obtain ⟨d, hd⟩ := Option.isSome_iff_exists.mp
    (countDir_isSome b p 0 1 gRight
      (by intro r c hrc hg; simp [gRight] at hg; unfold inB at hrc ⊢; omega)
      searchFuel mv.row mv.column h)
  obtain ⟨u, hu⟩ := Option.isSome_iff_exists.mp
    (countDir_isSome b p 0 (-1) gLeft
      (by intro r c hrc hg; simp [gLeft] at hg; unfold inB at hrc ⊢; omega)
      searchFuel mv.row mv.column h)
  simp [check_horizontal, hd, hu]

theorem check_diagonal_isSome (b : Board) (mv : GameMove) (p : Cell)
    (h : inB mv.row mv.column) : (check_diagonal b mv p).isSome := by
  obtain ⟨n1, h1⟩ := Option.isSome_iff_exists.mp
    (countDir_isSome b p (-1) 1 gUpRight
      (by intro r c hrc hg; simp [gUpRight] at hg; unfold inB at hrc ⊢; omega)
      searchFuel mv.row mv.column h)
  obtain ⟨n2, h2⟩ := Option.isSome_iff_exists.mp
    (countDir_isSome b p 1 (-1) gDownLeft
      (by
        intro r c hrc hg
        simp [gDownLeft] at hg
        unfold inB at hrc ⊢
        omega)
      searchFuel mv.row mv.column h)
  obtain ⟨n3, h3⟩ := Option.isSome_iff_exists.mp
    (countDir_isSome b p (-1) (-1) gUpLeft
      (by intro r c hrc hg; simp [gUpLeft] at hg; unfold inB at hrc ⊢; omega)
      searchFuel mv.row mv.column h)
  obtain ⟨n4, h4⟩ := Option.isSome_iff_exists.mp
    (countDir_isSome b p 1 1 gDownRight
      (by
        intro r c hrc hg
        simp [gDownRight] at hg
        unfold inB at hrc ⊢
        omega)
      searchFuel mv.row mv.column h)
  simp only [check_diagonal, h1, h2, h3, h4]
  split <;> simp

theorem check_winner_isSome (b : Board) (mv : GameMove) (p : Cell)
    (h : inB mv.row mv.column) : (check_winner b mv p).isSome := by
  obtain ⟨v, hv⟩ := Option.isSome_iff_exists.mp
    (check_vertical_isSome b mv p h)
  obtain ⟨hz, hh⟩ := Option.isSome_iff_exists.mp
    (check_horizontal_isSome b mv p h)
  have hd := check_diagonal_isSome b mv p h
  simp only [check_winner, hv, hh]
  cases v
  · cases hz
    · simpa using hd
    · simp
  · simp

/-- C9: for every `last_move` with row in `[0,5]` and column in `[0,6]`,
every board-cell access performed by `check_winner` (via `check_vertical`,
`check_horizontal` and `check_diagonal`) is inside the 6×7 grid: each
`while` loop tests the bounds of the next cell before reading it, so the
embedding's out-of-bounds branch (`none`) is unreachable and all four
checkers return a value. -/
theorem c9_checker_accesses_in_bounds (b : Board) (mv : GameMove) (p : Cell)
    (h1 : 0 ≤ mv.row) (h2 : mv.row ≤ 5) (h3 : 0 ≤ mv.column)
    (h4 : mv.column ≤ 6) :
    (check_vertical b mv p).isSome ∧ (check_horizontal b mv p).isSome ∧
    (check_diagonal b mv p).isSome ∧ (check_winner b mv p).isSome := by
  have h : inB mv.row mv.column := ⟨h1, by omega, h3, by omega⟩
  exact ⟨check_vertical_isSome b mv p h, check_horizontal_isSome b mv p h,
    check_diagonal_isSome b mv p h, check_winner_isSome b mv p h⟩

/-- Witness for C9 at a concrete board and move. -/
theorem c9_checker_accesses_in_bounds_witness :
    (check_vertical emptyBoard ⟨2, 3⟩ cell_player1).isSome ∧
    (check_horizontal emptyBoard ⟨2, 3⟩ cell_player1).isSome ∧
    (check_diagonal emptyBoard ⟨2, 3⟩ cell_player1).isSome ∧
    (check_winner emptyBoard ⟨2, 3⟩ cell_player1).isSome :=
  c9_checker_accesses_in_bounds emptyBoard ⟨2, 3⟩ cell_player1
    (by decide) (by decide) (by decide) (by decide)

/-! ## Characterising the direction walks -/

theorem windowAll_iff {b : Board} {p : Cell} {s t dr dc : Int} :
    windowAll b p s t dr dc = true ↔
      ∀ i : Nat, i < 4 → readCell b (s + (i : Int) * dr) (t + (i : Int) * dc)
        = some p := by
  simp [windowAll, List.all_eq_true, List.mem_range]

theorem countDir_sound (b : Board) (p : Cell) (dr dc : Int)
    (g : Int → Int → Bool) :
    ∀ (fuel : Nat) (r c : Int) (n : Nat),
      countDir b p dr dc g fuel r c = some n →
      ∀ i : Nat, 1 ≤ i → i ≤ n →
        readCell b (r + (i : Int) * dr) (c + (i : Int) * dc) = some p := by
  intro fuel
  induction fuel with
  | zero =>
    intro r c n h i h1 h2
    simp [countDir] at h
    omega
  | succ f ih =>
    intro r c n h i h1 h2
    by_cases hg : g (r + dr) (c + dc) = true
    · cases hread : readCell b (r + dr) (c + dc) with
      | none => simp [countDir, hg, hread] at h
      | some x =>
        by_cases hx : x = p
        · cases hrec : countDir b p dr dc g f (r + dr) (c + dc) with
          | none => simp [countDir, hg, hread, hx, hrec] at h
          | some m =>
            simp [countDir, hg, hread, hx, hrec] at h
            subst h
            obtain ⟨j, rfl⟩ : ∃ j, i = j + 1 := ⟨i - 1, by omega⟩
            cases j with
            | zero => rw [hx] at hread; simpa using hread
            | succ j' =>
              have := ih (r + dr) (c + dc) m hrec (j' + 1) (by omega)
                (by omega)
              convert this using 2 <;> push_cast <;> ring
        · simp [countDir, hg, hread, hx] at h
          omega
    · simp [countDir, hg] at h
      omega

theorem countDir_complete (b : Board) (p : Cell) (dr dc : Int)
    (g : Int → Int → Bool) (hgOK : ∀ r' c', inB r' c' → g r' c' = true) :
    ∀ (fuel : Nat) (r c : Int) (n m : Nat),
      countDir b p dr dc g fuel r c = some n →
      (∀ i : Nat, 1 ≤ i → i ≤ m →
        readCell b (r + (i : Int) * dr) (c + (i : Int) * dc) = some p) →
      m ≤ fuel → m ≤ n := by
  intro fuel
  induction fuel with
  | zero => intro r c n m _ _ hm; omega
  | succ f ih =>
    intro r c n m h hall hm
    cases m with
    | zero => omega
    | succ k =>
      have hread1 : readCell b (r + dr) (c + dc) = some p := by
        have := hall 1 (by omega) (by omega)
        simpa using this
      have hg := hgOK _ _ (inB_of_readCell hread1)
      cases hrec : countDir b p dr dc g f (r + dr) (c + dc) with
      | none => simp [countDir, hg, hread1, hrec] at h
      | some m' =>
        simp [countDir, hg, hread1, hrec] at h
        subst h
        have hk : k ≤ m' := by
          refine ih (r + dr) (c + dc) m' k hrec ?_ (by omega)
          intro i hi1 hi2
          have := hall (i + 1) (by omega) (by omega)
          convert this using 2 <;> push_cast <;> ring
        omega

theorem gDown_ok : ∀ r c : Int, inB r c → gDown r c = true := by
  intro r c h; obtain ⟨_, h2, _, _⟩ := h; simp [gDown]; omega

theorem gUp_ok : ∀ r c : Int, inB r c → gUp r c = true := by
  intro r c h; obtain ⟨h1, _, _, _⟩ := h; simp [gUp]; omega

theorem gRight_ok : ∀ r c : Int, inB r c → gRight r c = true := by
  intro r c h; obtain ⟨_, _, _, h4⟩ := h; simp [gRight]; omega

theorem gLeft_ok : ∀ r c : Int, inB r c → gLeft r c = true := by
  intro r c h; obtain ⟨_, _, h3, _⟩ := h; simp [gLeft]; omega

theorem gUpRight_ok : ∀ r c : Int, inB r c → gUpRight r c = true := by
  intro r c h; obtain ⟨h1, _, _, h4⟩ := h; simp [gUpRight]; omega

theorem gDownLeft_ok : ∀ r c : Int, inB r c → gDownLeft r c = true := by
  intro r c h; obtain ⟨_, h2, h3, _⟩ := h; simp [gDownLeft]; omega

theorem gUpLeft_ok : ∀ r c : Int, inB r c → gUpLeft r c = true := by
  intro r c h; obtain ⟨h1, _, h3, _⟩ := h; simp [gUpLeft]; omega

theorem gDownRight_ok : ∀ r c : Int, inB r c → gDownRight r c = true := by
  intro r c h; obtain ⟨_, h2, _, h4⟩ := h; simp [gDownRight]; omega

theorem axisWin_iff {b : Board} {p : Cell} {r c dr dc : Int} :
    axisWin b p r c dr dc = true ↔
      ∃ k : Nat, k < 4 ∧
        windowAll b p (r - (k : Int) * dr) (c - (k : Int) * dc) dr dc
          = true := by
  simp [axisWin, List.any_eq_true, List.mem_range]

theorem axis_count_iff (b : Board) (p : Cell) (dr dc dr2 dc2 : Int)
    (g1 g2 : Int → Int → Bool)
    (hg1 : ∀ r' c', inB r' c' → g1 r' c' = true)
    (hg2 : ∀ r' c', inB r' c' → g2 r' c' = true)
    (h2r : dr2 = -dr) (h2c : dc2 = -dc)
    {r c : Int} {n1 n2 : Nat}
    (hplus : countDir b p dr dc g1 searchFuel r c = some n1)
    (hminus : countDir b p dr2 dc2 g2 searchFuel r c = some n2)
    (hcell : readCell b r c = some p) :
    WIN_COUNT ≤ 1 + n1 + n2 ↔ axisWin b p r c dr dc = true := by
  subst h2r h2c
  have hseg : ∀ o : Int, -(n2 : Int) ≤ o → o ≤ (n1 : Int) →
      readCell b (r + o * dr) (c + o * dc) = some p := by
    intro o ho1 ho2
    rcases lt_trichotomy o 0 with h | h | h
    · have hj := countDir_sound b p (-dr) (-dc) g2 searchFuel r c n2 hminus
        (-o).toNat (by omega) (by omega)
      have hcast : (((-o).toNat : Nat) : Int) = -o :=
        Int.toNat_of_nonneg (by omega)
      rw [hcast] at hj
      convert hj using 2 <;> ring
    · subst h
      convert hcell using 2 <;> ring
    · have hj := countDir_sound b p dr dc g1 searchFuel r c n1 hplus
        o.toNat (by omega) (by omega)
      have hcast : ((o.toNat : Nat) : Int) = o := Int.toNat_of_nonneg (by omega)
      rw [hcast] at hj
      exact hj
  constructor
  · intro h4
    have h4' : 4 ≤ 1 + n1 + n2 := h4
    rw [axisWin_iff]
    refine ⟨min n2 3, by omega, ?_⟩
    have hk2 : min n2 3 ≤ n2 := min_le_left _ _
    have hk3 : min n2 3 ≤ 3 := min_le_right _ _
    have hk1 : 3 - min n2 3 ≤ n1 := by
      rcases le_total n2 3 with hm | hm
      · rw [min_eq_left hm]; omega
      · rw [min_eq_right hm]; omega
    rw [windowAll_iff]
    intro i hi
    have := hseg ((i : Int) - (min n2 3 : Nat)) (by omega) (by omega)
    convert this using 2 <;> ring
  · intro hax
    rw [axisWin_iff] at hax
    obtain ⟨k, hk4, hwin⟩ := hax
    rw [windowAll_iff] at hwin
    have hn1 : 3 - k ≤ n1 := by
      refine countDir_complete b p dr dc g1 hg1 searchFuel r c n1 (3 - k)
        hplus ?_ (by unfold searchFuel; omega)
      intro i hi1 hi2
      have := hwin (k + i) (by omega)
      convert this using 2 <;> push_cast <;> ring
    have hn2 : k ≤ n2 := by
      refine countDir_complete b p (-dr) (-dc) g2 hg2 searchFuel r c n2 k
        hminus ?_ (by unfold searchFuel; omega)
      intro i hi1 hi2
      have hle : i ≤ k := hi2
      have := hwin (k - i) (by omega)
      convert this using 2 <;> push_cast [Nat.cast_sub hle] <;> ring
    show 4 ≤ 1 + n1 + n2
    omega

theorem windowAll_neg {b : Board} {p : Cell} {s t dr dc : Int} :
    windowAll b p s t (-dr) (-dc)
      = windowAll b p (s - 3 * dr) (t - 3 * dc) dr dc := by
  rw [Bool.eq_iff_iff, windowAll_iff, windowAll_iff]
  constructor
  · intro h i hi
    have := h (3 - i) (by omega)
    convert this using 2 <;> push_cast [Nat.cast_sub (by omega : i ≤ 3)] <;>
      ring
  · intro h i hi
    have := h (3 - i) (by omega)
    convert this using 2 <;> push_cast [Nat.cast_sub (by omega : i ≤ 3)] <;>
      ring

theorem axisWin_neg (b : Board) (p : Cell) (r c dr dc dr2 dc2 : Int)
    (h2r : dr2 = -dr) (h2c : dc2 = -dc) :
    axisWin b p r c dr2 dc2 = axisWin b p r c dr dc := by
  subst h2r h2c
  rw [Bool.eq_iff_iff, axisWin_iff, axisWin_iff]
  constructor
  · rintro ⟨k, hk, hw⟩
    refine ⟨3 - k, by omega, ?_⟩
    rw [windowAll_neg] at hw
    convert hw using 2 <;> push_cast [Nat.cast_sub (by omega : k ≤ 3)] <;>
      ring
  · rintro ⟨k, hk, hw⟩
    refine ⟨3 - k, by omega, ?_⟩
    rw [windowAll_neg]
    convert hw using 2 <;> push_cast [Nat.cast_sub (by omega : k ≤ 3)] <;>
      ring

theorem check_vertical_eq (b : Board) (mv : GameMove) (p : Cell)
    (hcell : readCell b mv.row mv.column = some p) :
    check_vertical b mv p
      = some (axisWin b p mv.row mv.column 1 0) := by
  have hin := inB_of_readCell hcell
  obtain ⟨d, hd⟩ := Option.isSome_iff_exists.mp
    (countDir_isSome b p 1 0 gDown
      (fun r c hrc hg => by simp [gDown] at hg; unfold inB at hrc ⊢; omega)
      searchFuel mv.row mv.column hin)
  obtain ⟨u, hu⟩ := Option.isSome_iff_exists.mp
    (countDir_isSome b p (-1) 0 gUp
      (fun r c hrc hg => by simp [gUp] at hg; unfold inB at hrc ⊢; omega)
      searchFuel mv.row mv.column hin)
  have hiff := axis_count_iff b p 1 0 (-1) 0 gDown gUp gDown_ok gUp_ok
    (by norm_num) (by norm_num) hd hu hcell
  simp only [check_vertical, hd, hu]
  congr 1
  rw [Bool.eq_iff_iff, decide_eq_true_iff]
  exact hiff

theorem check_horizontal_eq (b : Board) (mv : GameMove) (p : Cell)
    (hcell : readCell b mv.row mv.column = some p) :
    check_horizontal b mv p
      = some (axisWin b p mv.row mv.column 0 1) := by
  have hin := inB_of_readCell hcell
  obtain ⟨d, hd⟩ := Option.isSome_iff_exists.mp
    (countDir_isSome b p 0 1 gRight
      (fun r c hrc hg => by simp [gRight] at hg; unfold inB at hrc ⊢; omega)
      searchFuel mv.row mv.column hin)
  obtain ⟨u, hu⟩ := Option.isSome_iff_exists.mp
    (countDir_isSome b p 0 (-1) gLeft
      (fun r c hrc hg => by simp [gLeft] at hg; unfold inB at hrc ⊢; omega)
      searchFuel mv.row mv.column hin)
  have hiff := axis_count_iff b p 0 1 0 (-1) gRight gLeft gRight_ok gLeft_ok
    (by norm_num) (by norm_num) hd hu hcell
  simp only [check_horizontal, hd, hu]
  congr 1
  rw [Bool.eq_iff_iff, decide_eq_true_iff]
  exact hiff

theorem check_diagonal_eq (b : Board) (mv : GameMove) (p : Cell)
    (hcell : readCell b mv.row mv.column = some p) :
    check_diagonal b mv p
      = some (axisWin b p mv.row mv.column 1 (-1)
          || axisWin b p mv.row mv.column 1 1) := by
  have hin := inB_of_readCell hcell
  obtain ⟨n1, h1⟩ := Option.isSome_iff_exists.mp
    (countDir_isSome b p (-1) 1 gUpRight
      (fun r c hrc hg => by simp [gUpRight] at hg; unfold inB at hrc ⊢; omega)
      searchFuel mv.row mv.column hin)
  obtain ⟨n2, h2⟩ := Option.isSome_iff_exists.mp
    (countDir_isSome b p 1 (-1) gDownLeft
      (fun r c hrc hg => by
        simp [gDownLeft] at hg
        unfold inB at hrc ⊢
        omega)
      searchFuel mv.row mv.column hin)
  obtain ⟨n3, h3⟩ := Option.isSome_iff_exists.mp
    (countDir_isSome b p (-1) (-1) gUpLeft
      (fun r c hrc hg => by simp [gUpLeft] at hg; unfold inB at hrc ⊢; omega)
      searchFuel mv.row mv.column hin)
  obtain ⟨n4, h4⟩ := Option.isSome_iff_exists.mp
    (countDir_isSome b p 1 1 gDownRight
      (fun r c hrc hg => by
        simp [gDownRight] at hg
        unfold inB at hrc ⊢
        omega)
      searchFuel mv.row mv.column hin)
  have hiff1 := axis_count_iff b p (-1) 1 1 (-1) gUpRight gDownLeft
    gUpRight_ok gDownLeft_ok (by norm_num) (by norm_num) h1 h2 hcell
  have hiff2 := axis_count_iff b p (-1) (-1) 1 1 gUpLeft gDownRight
    gUpLeft_ok gDownRight_ok (by norm_num) (by norm_num) h3 h4 hcell
  have hax1 : axisWin b p mv.row mv.column (-1) 1
      = axisWin b p mv.row mv.column 1 (-1) :=
    axisWin_neg b p mv.row mv.column 1 (-1) (-1) 1 (by norm_num) (by norm_num)
  have hax2 : axisWin b p mv.row mv.column (-1) (-1)
      = axisWin b p mv.row mv.column 1 1 :=
    axisWin_neg b p mv.row mv.column 1 1 (-1) (-1) (by norm_num) (by norm_num)
  rw [hax1] at hiff1
  rw [hax2] at hiff2
  by_cases hfirst : WIN_COUNT ≤ 1 + n1 + n2
  · have : axisWin b p mv.row mv.column 1 (-1) = true := hiff1.mp hfirst
    simp [check_diagonal, h1, h2, hfirst, this]
  · have hfalse : axisWin b p mv.row mv.column 1 (-1) = false := by
      rcases Bool.eq_false_or_eq_true
        (axisWin b p mv.row mv.column 1 (-1)) with hb | hb
      · exact absurd (hiff1.mpr hb) hfirst
      · exact hb
    simp only [check_diagonal, h1, h2, hfirst, if_false, h3, h4, hfalse,
      Bool.false_or]
    congr 1
    rw [Bool.eq_iff_iff, decide_eq_true_iff]
    exact hiff2

theorem check_winner_eq (b : Board) (mv : GameMove) (p : Cell)
    (hcell : readCell b mv.row mv.column = some p) :
    check_winner b mv p = some (fourThrough b mv.row mv.column p) := by
  have hv := check_vertical_eq b mv p hcell
  have hh := check_horizontal_eq b mv p hcell
  have hd := check_diagonal_eq b mv p hcell
  have hfour : fourThrough b mv.row mv.column p
      = (axisWin b p mv.row mv.column 1 0
        || (axisWin b p mv.row mv.column 0 1
          || (axisWin b p mv.row mv.column 1 1
            || axisWin b p mv.row mv.column 1 (-1)))) := by
    simp [fourThrough, dirList, axisWin, Bool.or_assoc]
  rw [hfour]
  by_cases h10 : axisWin b p mv.row mv.column 1 0 = true
  · simp [check_winner, hv, h10]
  · rw [Bool.not_eq_true] at h10
    by_cases h01 : axisWin b p mv.row mv.column 0 1 = true
    · simp [check_winner, hv, hh, h10, h01]
    · rw [Bool.not_eq_true] at h01
      simp [check_winner, hv, hh, hd, h10, h01, Bool.or_comm]

/-! ## Claim C1: the historical `check_winner` misses split runs -/

/-- C1 (code bug in the historical v1 revision): on a board reachable in
play — Player 1 drops columns 0,1,3 and then fills the gap at `(5,2)` — the
bottom row carries a 4-in-a-row through the last move (`fourThrough`), yet
the v1 `check_winner` (per-direction counts, reset between directions,
compared with `== WIN_COUNT`) reports no win, because the run of 4 is split
1 + the placed piece + 2 around the last move.  The corrected v2
`check_winner` reports the win, as the claim requires. -/
theorem c1_v1_check_winner_misses_split_run :
    playMoves c1_trace = some c1_board ∧
    c1_board 5 2 = cell_player1 ∧
    fourThrough c1_board 5 2 cell_player1 = true ∧
    check_winner_v1 c1_board ⟨5, 2⟩ cell_player1 = some false ∧
    check_winner c1_board ⟨5, 2⟩ cell_player1 = some true := by
  have h1 : playMoves c1_trace = some c1_chain := by decide
  have h2 : c1_chain = c1_board := by decide
  exact ⟨h1.trans (congrArg some h2), by decide, by decide, by decide,
    by decide⟩

/-! ## Claim C4: the gravity drop -/

/-- C4: for every board, column and player, if the column has an empty cell
then `make_move` places the piece in the lowest empty row (scanning from
row 5 upward) and returns that row; if the column is full it returns the
`-1` error result and leaves every cell unchanged. -/
theorem c4_make_move_drop (b : Board) (col : Fin 7) (p : Cell) :
    ((∃ r : Fin 6, b r col = cell_empty) →
      ∃ r : Fin 6,
        make_move b col p = ((r.val : Int), updateCell b r col p) ∧
        b r col = cell_empty ∧
        (∀ r' : Fin 6, r < r' → b r' col ≠ cell_empty)) ∧
    ((∀ r : Fin 6, b r col ≠ cell_empty) → make_move b col p = (-1, b)) := by
  constructor
  · rintro ⟨r0, hr0⟩
    obtain ⟨r, hr⟩ := lowestEmptyRow_isSome_of_empty hr0
    obtain ⟨he, hlow⟩ := lowestEmptyRow_some hr
    exact ⟨r, by simp [make_move, hr], he, hlow⟩
  · intro hfull
    have hnone : lowestEmptyRow b col = none :=
      lowestEmptyRow_eq_none_iff.mpr hfull
    simp [make_move, hnone]

/-- Witness for C4: both branches at concrete inputs. -/
theorem c4_make_move_drop_witness :
    (∃ r : Fin 6,
      make_move emptyBoard 0 cell_player1
        = ((r.val : Int), updateCell emptyBoard r 0 cell_player1) ∧
      emptyBoard r 0 = cell_empty ∧
      (∀ r' : Fin 6, r < r' → emptyBoard r' 0 ≠ cell_empty)) ∧
    make_move c4_full_board 0 cell_player2 = (-1, c4_full_board) :=
  ⟨(c4_make_move_drop emptyBoard 0 cell_player1).1 ⟨5, rfl⟩,
   (c4_make_move_drop c4_full_board 0 cell_player2).2 (by decide)⟩

/-! ## Claim C5: search routines restore the board -/

theorem undo_move_fin (b : Board) (r : Fin 6) (c : Fin 7) :
    undo_move b (r.val : Int) c = updateCell b r c cell_empty := by
  unfold undo_move
  rw [dif_pos ⟨Int.natCast_nonneg _, by exact_mod_cast r.isLt⟩]
  congr 1

theorem make_move_undo (b : Board) (col : Fin 7) (p : Cell) :
    undo_move (make_move b col p).2 (make_move b col p).1 col = b := by
  cases hr : lowestEmptyRow b col with
  | none =>
    simp only [make_move, hr]
    unfold undo_move
    rw [dif_neg (by norm_num)]
  | some r =>
    have he := (lowestEmptyRow_some hr).1
    simp only [make_move, hr]
    rw [undo_move_fin]
    exact updateCell_undo p he

theorem find_winning_move_go_board (p : Cell) :
    ∀ (cols : List (Fin 7)) (b : Board),
      (find_winning_move_go p cols b).2 = b := by
  intro cols
  induction cols with
  | nil => intro b; rfl
  | cons c rest ih =>
    intro b
    cases hr : lowestEmptyRow b c with
    | none => simp [find_winning_move_go, hr, ih]
    | some r =>
      have he := (lowestEmptyRow_some hr).1
      have hrestore := updateCell_undo (b := b) (r := r) (c := c) p he
      by_cases hwin : (check_winner (updateCell b r c p)
          ⟨(r.val : Int), (c.val : Int)⟩ p).getD false = true
      · simp [find_winning_move_go, hr, hwin, hrestore]
      · simp [find_winning_move_go, hr, hwin, hrestore, ih]

theorem find_winning_move_board (b : Board) (p : Cell) :
    (find_winning_move b p).2 = b :=
  find_winning_move_go_board p (List.finRange 7) b

theorem count_threats_board {b : Board} {row : Fin 6} {col : Fin 7}
    (p : Cell) (h : b row col = cell_empty) :
    (count_threats b row col p).2 = b := by
  simp only [count_threats]
  exact updateCell_undo p h

theorem abMaxLoop_board (rec : Board → Int → Int → Bool → Cell → Int × Board)
    (hrec : ∀ b alpha beta mx p, (rec b alpha beta mx p).2 = b)
    (p : Cell) (beta : Int) :
    ∀ (cols : List (Fin 7)) (b : Board) (alpha m : Int),
      (abMaxLoop rec p beta cols b alpha m).2 = b := by
  intro cols
  induction cols with
  | nil => intros; rfl
  | cons col rest ih =>
    intro b alpha m
    have hb2 : undo_move (rec (make_move b col p).2 alpha beta false p).2
        (make_move b col p).1 col = b := by
      rw [hrec]
      exact make_move_undo b col p
    by_cases hcut : beta ≤ max alpha
        (rec (make_move b col p).2 alpha beta false p).1
    · simp [abMaxLoop, hcut, hb2]
    · simp [abMaxLoop, hcut, hb2, ih]

theorem abMinLoop_board (rec : Board → Int → Int → Bool → Cell → Int × Board)
    (hrec : ∀ b alpha beta mx p, (rec b alpha beta mx p).2 = b)
    (p opp : Cell) (alpha : Int) :
    ∀ (cols : List (Fin 7)) (b : Board) (beta m : Int),
      (abMinLoop rec p opp alpha cols b beta m).2 = b := by
  intro cols
  induction cols with
  | nil => intros; rfl
  | cons col rest ih =>
    intro b beta m
    have hb2 : undo_move (rec (make_move b col opp).2 alpha beta true p).2
        (make_move b col opp).1 col = b := by
      rw [hrec]
      exact make_move_undo b col opp
    by_cases hcut : min beta
        (rec (make_move b col opp).2 alpha beta true p).1 ≤ alpha
    · simp [abMinLoop, hcut, hb2]
    · simp [abMinLoop, hcut, hb2, ih]

theorem minimax_board :
    ∀ (d : Nat) (b : Board) (alpha beta : Int) (mx : Bool) (p : Cell),
      (minimax d b alpha beta mx p).2 = b := by
  intro d
  induction d with
  | zero => intros; rfl
  | succ n ih =>
    intro b alpha beta mx p
    by_cases hgo : is_game_over b = true
    · simp [minimax, hgo]
    · by_cases hempty : (get_valid_moves b).isEmpty = true
      · simp [minimax, hgo, hempty]
      · cases mx
        · simp only [minimax, hgo, hempty]
          simp only [Bool.false_eq_true, if_false]
          exact abMinLoop_board (minimax n) ih p (opponentOf p) alpha
            (get_valid_moves b) b beta INT_MAX
        · simp only [minimax, hgo, hempty]
          simp only [if_true]
          exact abMaxLoop_board (minimax n) ih p beta
            (get_valid_moves b) b alpha INT_MIN

/-- C5: every AI search and heuristic routine restores the board before
returning: `find_winning_move` always, `count_threats` whenever it is
applied to an empty cell (the only way it is called — a simulated
*placement* targets an empty cell), and `minimax` at any depth, alpha,
beta and maximizing flag; each simulated placement is undone in LIFO
order. -/
theorem c5_search_restores_board :
    (∀ (b : Board) (p : Cell), (find_winning_move b p).2 = b) ∧
    (∀ (b : Board) (row : Fin 6) (col : Fin 7) (p : Cell),
      b row col = cell_empty → (count_threats b row col p).2 = b) ∧
    (∀ (d : Nat) (b : Board) (alpha beta : Int) (mx : Bool) (p : Cell),
      (minimax d b alpha beta mx p).2 = b) :=
  ⟨find_winning_move_board,
   fun _ _ _ p h => count_threats_board p h,
   minimax_board⟩

/-- Witness for C5 at concrete inputs. -/
theorem c5_search_restores_board_witness :
    (find_winning_move emptyBoard cell_player2).2 = emptyBoard ∧
    (count_threats emptyBoard 5 3 cell_player2).2 = emptyBoard ∧
    (minimax 2 emptyBoard INT_MIN INT_MAX true cell_player2).2 = emptyBoard :=
  ⟨c5_search_restores_board.1 emptyBoard cell_player2,
   c5_search_restores_board.2.1 emptyBoard 5 3 cell_player2 rfl,
   c5_search_restores_board.2.2 2 emptyBoard INT_MIN INT_MAX true
     cell_player2⟩

/-! ## Claim C3: the evaluator matches the spec's window table -/

theorem windowScore_agree_p1 :
    ∀ l0 l1 l2 l3 : Cell,
      windowScoreSrc cell_player1 cell_player2 [l0, l1, l2, l3]
        = windowScoreSpec cell_player1 cell_player2 [l0, l1, l2, l3] := by
  decide

theorem windowScore_agree_p2 :
    ∀ l0 l1 l2 l3 : Cell,
      windowScoreSrc cell_player2 cell_player1 [l0, l1, l2, l3]
        = windowScoreSpec cell_player2 cell_player1 [l0, l1, l2, l3] := by
  decide

theorem center_sum_eq (b : Board) (p : Cell) :
    (∑ r ∈ Finset.range 6, (if cellN b r 3 = p then (3 : Int) else 0))
      = 3 * ((Finset.univ.filter fun r : Fin 6 => b r 3 = p).card : Int) := by
  rw [← Fin.sum_univ_eq_sum_range
    (fun r => if cellN b r 3 = p then (3 : Int) else 0) 6]
  have hpt : ∀ r : Fin 6,
      (if cellN b r.val 3 = p then (3 : Int) else 0)
        = (if b r 3 = p then (3 : Int) else 0) := by
    intro r
    have : cellN b r.val 3 = b r 3 := by
      unfold cellN
      rw [dif_pos ⟨r.isLt, by norm_num⟩]
      congr 1
    rw [this]
  rw [Finset.sum_congr rfl fun r _ => hpt r, ← Finset.sum_filter,
    Finset.sum_const, nsmul_eq_mul, mul_comm]

/-- C3: for every board and player, `evaluate_position` equals the signed
sum over every contiguous 4-cell window (rows, columns, both diagonals) of
the spec's classification table — +100/+5/+2 for pure player windows,
−100/−4 for pure opponent windows, 0 for mixed windows — plus 3 for each
player piece in the center column (index 3). -/
theorem c3_evaluate_position_eq_spec (b : Board) (p : Cell)
    (hp : p ≠ cell_empty) :
    evaluate_position b p = evaluate_position_spec b p := by
  have hwin : ∀ l0 l1 l2 l3 : Cell,
      windowScoreSrc p (if p = cell_player1 then cell_player2
        else cell_player1) [l0, l1, l2, l3]
        = windowScoreSpec p (if p = cell_player1 then cell_player2
          else cell_player1) [l0, l1, l2, l3] := by
    cases p with
    | cell_empty => exact absurd rfl hp
    | cell_player1 => simpa using windowScore_agree_p1
    | cell_player2 => simpa using windowScore_agree_p2
  simp only [evaluate_position, evaluate_position_spec]
  rw [center_sum_eq b p]
  congr 1
  congr 1
  congr 1
  congr 1
  · exact Finset.sum_congr rfl fun r _ => Finset.sum_congr rfl
      fun c _ => hwin _ _ _ _
  · exact Finset.sum_congr rfl fun c _ => Finset.sum_congr rfl
      fun r _ => hwin _ _ _ _
  · exact Finset.sum_congr rfl fun r _ => Finset.sum_congr rfl
      fun c _ => hwin _ _ _ _
  · exact Finset.sum_congr rfl fun r _ => Finset.sum_congr rfl
      fun c _ => hwin _ _ _ _

/-- Witness for C3 at a concrete board and player. -/
theorem c3_evaluate_position_eq_spec_witness :
    evaluate_position c1_board cell_player1
      = evaluate_position_spec c1_board cell_player1 :=
  c3_evaluate_position_eq_spec c1_board cell_player1 (by decide)

/-! ## Claim C2: alpha-beta pruning never changes the chosen column

The proof follows the classical squeeze characterisation of (fail-soft)
alpha-beta: for `alpha < beta` the pruned value `ab` and the exhaustive
value `v` satisfy `ab ≤ max alpha v` and `min beta v ≤ ab`; with the full
root window and the evaluator's value bound this forces `ab = v`. -/

theorem npMaxLoop_ge_acc (rec : Board → Bool → Cell → Int) (p : Cell) :
    ∀ (cols : List (Fin 7)) (b : Board) (acc : Int),
      acc ≤ npMaxLoop rec p cols b acc := by
  intro cols
  induction cols with
  | nil => intro b acc; exact le_refl acc
  | cons col rest ih =>
    intro b acc
    exact le_trans (le_max_left acc _) (ih b _)

theorem npMaxLoop_mono (rec : Board → Bool → Cell → Int) (p : Cell) :
    ∀ (cols : List (Fin 7)) (b : Board) (a a' : Int), a ≤ a' →
      npMaxLoop rec p cols b a ≤ npMaxLoop rec p cols b a' := by
  intro cols
  induction cols with
  | nil => intro b a a' h; exact h
  | cons col rest ih =>
    intro b a a' h
    exact ih b _ _ (max_le_max h (le_refl _))

theorem npMaxLoop_pull (rec : Board → Bool → Cell → Int) (p : Cell) :
    ∀ (cols : List (Fin 7)) (b : Board) (x a : Int),
      npMaxLoop rec p cols b (max x a) ≤ max x (npMaxLoop rec p cols b a) := by
  intro cols
  induction cols with
  | nil => intro b x a; exact le_refl _
  | cons col rest ih =>
    intro b x a
    show npMaxLoop rec p rest b
      (max (max x a) (rec (make_move b col p).2 false p)) ≤ _
    rw [max_assoc]
    exact ih b x _

theorem npMinLoop_le_acc (rec : Board → Bool → Cell → Int) (p opp : Cell) :
    ∀ (cols : List (Fin 7)) (b : Board) (acc : Int),
      npMinLoop rec p opp cols b acc ≤ acc := by
  intro cols
  induction cols with
  | nil => intro b acc; exact le_refl acc
  | cons col rest ih =>
    intro b acc
    exact le_trans (ih b _) (min_le_left acc _)

theorem npMinLoop_mono (rec : Board → Bool → Cell → Int) (p opp : Cell) :
    ∀ (cols : List (Fin 7)) (b : Board) (a a' : Int), a ≤ a' →
      npMinLoop rec p opp cols b a ≤ npMinLoop rec p opp cols b a' := by
  intro cols
  induction cols with
  | nil => intro b a a' h; exact h
  | cons col rest ih =>
    intro b a a' h
    exact ih b _ _ (min_le_min h (le_refl _))

theorem npMinLoop_pull (rec : Board → Bool → Cell → Int) (p opp : Cell) :
    ∀ (cols : List (Fin 7)) (b : Board) (x a : Int),
      min x (npMinLoop rec p opp cols b a)
        ≤ npMinLoop rec p opp cols b (min x a) := by
  intro cols
  induction cols with
  | nil => intro b x a; exact le_refl _
  | cons col rest ih =>
    intro b x a
    show _ ≤ npMinLoop rec p opp rest b
      (min (min x a) (rec (make_move b col opp).2 true p))
    rw [min_assoc]
    exact ih b x _

theorem abMaxLoop_cons_eq (rec : Board → Int → Int → Bool → Cell → Int × Board)
    (hrecb : ∀ b alpha beta mx p, (rec b alpha beta mx p).2 = b)
    (p : Cell) (beta : Int) (col : Fin 7) (rest : List (Fin 7)) (b : Board)
    (alpha m : Int) :
    abMaxLoop rec p beta (col :: rest) b alpha m
      = (if beta ≤ max alpha (rec (make_move b col p).2 alpha beta false p).1
         then (max m (rec (make_move b col p).2 alpha beta false p).1, b)
         else abMaxLoop rec p beta rest b
           (max alpha (rec (make_move b col p).2 alpha beta false p).1)
           (max m (rec (make_move b col p).2 alpha beta false p).1)) := by
  have hb2 : undo_move (rec (make_move b col p).2 alpha beta false p).2
      (make_move b col p).1 col = b := by
    rw [hrecb]; exact make_move_undo b col p
  simp only [abMaxLoop, hb2]

theorem abMinLoop_cons_eq (rec : Board → Int → Int → Bool → Cell → Int × Board)
    (hrecb : ∀ b alpha beta mx p, (rec b alpha beta mx p).2 = b)
    (p opp : Cell) (alpha : Int) (col : Fin 7) (rest : List (Fin 7))
    (b : Board) (beta m : Int) :
    abMinLoop rec p opp alpha (col :: rest) b beta m
      = (if min beta (rec (make_move b col opp).2 alpha beta true p).1 ≤ alpha
         then (min m (rec (make_move b col opp).2 alpha beta true p).1, b)
         else abMinLoop rec p opp alpha rest b
           (min beta (rec (make_move b col opp).2 alpha beta true p).1)
           (min m (rec (make_move b col opp).2 alpha beta true p).1)) := by
  have hb2 : undo_move (rec (make_move b col opp).2 alpha beta true p).2
      (make_move b col opp).1 col = b := by
    rw [hrecb]; exact make_move_undo b col opp
  simp only [abMinLoop, hb2]

theorem abMaxLoop_le (rec : Board → Int → Int → Bool → Cell → Int × Board)
    (recNP : Board → Bool → Cell → Int) (p : Cell) (beta : Int)
    (hrecb : ∀ b alpha beta' mx p', (rec b alpha beta' mx p').2 = b)
    (ha : ∀ b alpha, alpha < beta →
      (rec b alpha beta false p).1 ≤ max alpha (recNP b false p)) :
    ∀ (cols : List (Fin 7)) (b : Board) (alpha m : Int), alpha < beta →
      (abMaxLoop rec p beta cols b alpha m).1
        ≤ max alpha (npMaxLoop recNP p cols b m) := by
  intro cols
  induction cols with
  | nil => intro b alpha m _; exact le_max_right alpha m
  | cons col rest ih =>
    intro b alpha m hab
    rw [abMaxLoop_cons_eq rec hrecb p beta col rest b alpha m]
    have hchild : (rec (make_move b col p).2 alpha beta false p).1
        ≤ max alpha (recNP (make_move b col p).2 false p) := ha _ _ hab
    show _ ≤ max alpha (npMaxLoop recNP p rest b
      (max m (recNP (make_move b col p).2 false p)))
    have hF := npMaxLoop_ge_acc recNP p rest b
      (max m (recNP (make_move b col p).2 false p))
    by_cases hcut : beta ≤ max alpha
        (rec (make_move b col p).2 alpha beta false p).1
    · rw [if_pos hcut]
      apply max_le
      · exact le_max_of_le_right (le_trans (le_max_left m _) hF)
      · exact le_trans hchild (max_le_max (le_refl alpha)
          (le_trans (le_max_right m _) hF))
    · rw [if_neg hcut]
      have hab' : max alpha (rec (make_move b col p).2 alpha beta false p).1
          < beta := not_le.mp hcut
      refine le_trans (ih b _ _ hab') ?_
      have h1 : max alpha (rec (make_move b col p).2 alpha beta false p).1
          ≤ max alpha (recNP (make_move b col p).2 false p) :=
        max_le (le_max_left _ _) hchild
      have hm' : max m (rec (make_move b col p).2 alpha beta false p).1
          ≤ max alpha (max m (recNP (make_move b col p).2 false p)) := by
        apply max_le
        · exact le_max_of_le_right (le_max_left m _)
        · exact le_trans hchild (max_le_max (le_refl alpha)
            (le_max_right m _))
      have h2 : npMaxLoop recNP p rest b
          (max m (rec (make_move b col p).2 alpha beta false p).1)
            ≤ max alpha (npMaxLoop recNP p rest b
              (max m (recNP (make_move b col p).2 false p))) :=
        le_trans (npMaxLoop_mono recNP p rest b _ _ hm')
          (npMaxLoop_pull recNP p rest b alpha _)
      apply max_le
      · exact le_trans h1 (max_le_max (le_refl alpha)
          (le_trans (le_max_right m _) hF))
      · exact h2

theorem abMaxLoop_ge (rec : Board → Int → Int → Bool → Cell → Int × Board)
    (recNP : Board → Bool → Cell → Int) (p : Cell) (beta : Int)
    (hrecb : ∀ b alpha beta' mx p', (rec b alpha beta' mx p').2 = b)
    (hb : ∀ b alpha, alpha < beta →
      min beta (recNP b false p) ≤ (rec b alpha beta false p).1) :
    ∀ (cols : List (Fin 7)) (b : Board) (alpha m : Int), alpha < beta →
      min beta (npMaxLoop recNP p cols b m)
        ≤ (abMaxLoop rec p beta cols b alpha m).1 := by
  intro cols
  induction cols with
  | nil => intro b alpha m _; exact min_le_right beta m
  | cons col rest ih =>
    intro b alpha m hab
    rw [abMaxLoop_cons_eq rec hrecb p beta col rest b alpha m]
    have hchild : min beta (recNP (make_move b col p).2 false p)
        ≤ (rec (make_move b col p).2 alpha beta false p).1 := hb _ _ hab
    show min beta (npMaxLoop recNP p rest b
      (max m (recNP (make_move b col p).2 false p))) ≤ _
    by_cases hcut : beta ≤ max alpha
        (rec (make_move b col p).2 alpha beta false p).1
    · rw [if_pos hcut]
      have hbev : beta ≤ (rec (make_move b col p).2 alpha beta false p).1 := by
        rcases le_max_iff.mp hcut with h | h
        · exact absurd h (not_le.mpr hab)
        · exact h
      exact le_trans (min_le_left _ _) (le_trans hbev (le_max_right m _))
    · rw [if_neg hcut]
      have hvcb : recNP (make_move b col p).2 false p < beta := by
        by_contra hge
        push_neg at hge
        rw [min_eq_left hge] at hchild
        exact hcut (le_trans hchild (le_max_right alpha _))
      have hvc_ev : recNP (make_move b col p).2 false p
          ≤ (rec (make_move b col p).2 alpha beta false p).1 := by
        have := hchild
        rwa [min_eq_right hvcb.le] at this
      have hmono : npMaxLoop recNP p rest b
          (max m (recNP (make_move b col p).2 false p))
            ≤ npMaxLoop recNP p rest b
              (max m (rec (make_move b col p).2 alpha beta false p).1) :=
        npMaxLoop_mono recNP p rest b _ _ (max_le_max (le_refl m) hvc_ev)
      exact le_trans (min_le_min (le_refl beta) hmono)
        (ih b _ _ (not_le.mp hcut))

theorem abMinLoop_le (rec : Board → Int → Int → Bool → Cell → Int × Board)
    (recNP : Board → Bool → Cell → Int) (p opp : Cell) (alpha : Int)
    (hrecb : ∀ b alpha' beta mx p', (rec b alpha' beta mx p').2 = b)
    (ha : ∀ b beta, alpha < beta →
      (rec b alpha beta true p).1 ≤ max alpha (recNP b true p)) :
    ∀ (cols : List (Fin 7)) (b : Board) (beta m : Int), alpha < beta →
      (abMinLoop rec p opp alpha cols b beta m).1
        ≤ max alpha (npMinLoop recNP p opp cols b m) := by
  intro cols
  induction cols with
  | nil => intro b beta m _; exact le_max_right alpha m
  | cons col rest ih =>
    intro b beta m hab
    rw [abMinLoop_cons_eq rec hrecb p opp alpha col rest b beta m]
    have hchild : (rec (make_move b col opp).2 alpha beta true p).1
        ≤ max alpha (recNP (make_move b col opp).2 true p) := ha _ _ hab
    show _ ≤ max alpha (npMinLoop recNP p opp rest b
      (min m (recNP (make_move b col opp).2 true p)))
    by_cases hcut : min beta
        (rec (make_move b col opp).2 alpha beta true p).1 ≤ alpha
    · rw [if_pos hcut]
      have hev : (rec (make_move b col opp).2 alpha beta true p).1
          ≤ alpha := by
        rcases min_le_iff.mp hcut with h | h
        · exact absurd h (not_le.mpr hab)
        · exact h
      exact le_trans (min_le_right m _) (le_trans hev (le_max_left _ _))
    · rw [if_neg hcut]
      have hab' : alpha < min beta
          (rec (make_move b col opp).2 alpha beta true p).1 := not_le.mp hcut
      have haev : alpha < (rec (make_move b col opp).2 alpha beta true p).1 :=
        lt_of_lt_of_le hab' (min_le_right _ _)
      have hev_vc : (rec (make_move b col opp).2 alpha beta true p).1
          ≤ recNP (make_move b col opp).2 true p := by
        rcases le_max_iff.mp hchild with h | h
        · exact absurd h (not_le.mpr haev)
        · exact h
      exact le_trans (ih b _ _ hab')
        (max_le_max (le_refl alpha) (npMinLoop_mono recNP p opp rest b _ _
          (min_le_min (le_refl m) hev_vc)))

theorem abMinLoop_ge (rec : Board → Int → Int → Bool → Cell → Int × Board)
    (recNP : Board → Bool → Cell → Int) (p opp : Cell) (alpha : Int)
    (hrecb : ∀ b alpha' beta mx p', (rec b alpha' beta mx p').2 = b)
    (hb : ∀ b beta, alpha < beta →
      min beta (recNP b true p) ≤ (rec b alpha beta true p).1) :
    ∀ (cols : List (Fin 7)) (b : Board) (beta m : Int), alpha < beta →
      min beta (npMinLoop recNP p opp cols b m)
        ≤ (abMinLoop rec p opp alpha cols b beta m).1 := by
  intro cols
  induction cols with
  | nil => intro b beta m _; exact min_le_right beta m
  | cons col rest ih =>
    intro b beta m hab
    rw [abMinLoop_cons_eq rec hrecb p opp alpha col rest b beta m]
    have hchild : min beta (recNP (make_move b col opp).2 true p)
        ≤ (rec (make_move b col opp).2 alpha beta true p).1 := hb _ _ hab
    show min beta (npMinLoop recNP p opp rest b
      (min m (recNP (make_move b col opp).2 true p))) ≤ _
    by_cases hcut : min beta
        (rec (make_move b col opp).2 alpha beta true p).1 ≤ alpha
    · rw [if_pos hcut]
      have hev : (rec (make_move b col opp).2 alpha beta true p).1
          ≤ alpha := by
        rcases min_le_iff.mp hcut with h | h
        · exact absurd h (not_le.mpr hab)
        · exact h
      have hvc : recNP (make_move b col opp).2 true p
          ≤ (rec (make_move b col opp).2 alpha beta true p).1 := by
        rcases le_or_lt beta (recNP (make_move b col opp).2 true p) with h | h
        · rw [min_eq_left h] at hchild
          exact absurd (le_trans hchild hev) (not_le.mpr hab)
        · rwa [min_eq_right h.le] at hchild
      have hG := npMinLoop_le_acc recNP p opp rest b
        (min m (recNP (make_move b col opp).2 true p))
      apply le_min
      · exact le_trans (min_le_right beta _) (le_trans hG (min_le_left m _))
      · exact le_trans (min_le_right beta _)
          (le_trans hG (le_trans (min_le_right m _) hvc))
    · rw [if_neg hcut]
      have hab' : alpha < min beta
          (rec (make_move b col opp).2 alpha beta true p).1 := not_le.mp hcut
      have hchain : min beta (npMinLoop recNP p opp rest b
          (min m (recNP (make_move b col opp).2 true p)))
            ≤ npMinLoop recNP p opp rest b
              (min m (rec (make_move b col opp).2 alpha beta true p).1) := by
        refine le_trans (npMinLoop_pull recNP p opp rest b beta _) ?_
        have : min beta (min m (recNP (make_move b col opp).2 true p))
            = min m (min beta (recNP (make_move b col opp).2 true p)) :=
          min_left_comm beta m _
        rw [this]
        exact npMinLoop_mono recNP p opp rest b _ _
          (min_le_min (le_refl m) hchild)
      refine le_trans (le_min ?_ hchain) (ih b _ _ hab')
      apply le_min
      · exact min_le_left beta _
      · exact le_trans hchain (le_trans (npMinLoop_le_acc recNP p opp rest b _)
          (min_le_right m _))

theorem minimax_squeeze :
    ∀ d : Nat,
      (∀ (b : Board) (alpha beta : Int) (mx : Bool) (p : Cell), alpha < beta →
        (minimax d b alpha beta mx p).1
          ≤ max alpha (minimaxNoPrune d b mx p)) ∧
      (∀ (b : Board) (alpha beta : Int) (mx : Bool) (p : Cell), alpha < beta →
        min beta (minimaxNoPrune d b mx p)
          ≤ (minimax d b alpha beta mx p).1) := by
  intro d
  induction d with
  | zero =>
    constructor
    · intro b alpha beta mx p _
      exact le_max_right alpha _
    · intro b alpha beta mx p _
      exact min_le_right beta _
  | succ n ih =>
    obtain ⟨ihA, ihB⟩ := ih
    constructor
    · intro b alpha beta mx p hab
      by_cases hgo : is_game_over b = true
      · have e1 : minimax (n + 1) b alpha beta mx p
            = (evaluate_position b p, b) := by simp [minimax, hgo]
        have e2 : minimaxNoPrune (n + 1) b mx p = evaluate_position b p := by
          simp [minimaxNoPrune, hgo]
        rw [e1, e2]
        exact le_max_right alpha _
      · by_cases hemp : (get_valid_moves b).isEmpty = true
        · have e1 : minimax (n + 1) b alpha beta mx p = (0, b) := by
            simp [minimax, hgo, hemp]
          have e2 : minimaxNoPrune (n + 1) b mx p = 0 := by
            simp [minimaxNoPrune, hgo, hemp]
          rw [e1, e2]
          exact le_max_right alpha 0
        · cases mx with
          | false =>
            have e1 : minimax (n + 1) b alpha beta false p
                = abMinLoop (minimax n) p (opponentOf p) alpha
                  (get_valid_moves b) b beta INT_MAX := by
              simp [minimax, hgo, hemp]
            have e2 : minimaxNoPrune (n + 1) b false p
                = npMinLoop (minimaxNoPrune n) p (opponentOf p)
                  (get_valid_moves b) b INT_MAX := by
              simp [minimaxNoPrune, hgo, hemp]
            rw [e1, e2]
            exact abMinLoop_le (minimax n) (minimaxNoPrune n) p (opponentOf p)
              alpha (minimax_board n)
              (fun b' beta' h => ihA b' alpha beta' true p h)
              (get_valid_moves b) b beta INT_MAX hab
          | true =>
            have e1 : minimax (n + 1) b alpha beta true p
                = abMaxLoop (minimax n) p beta (get_valid_moves b) b alpha
                  INT_MIN := by
              simp [minimax, hgo, hemp]
            have e2 : minimaxNoPrune (n + 1) b true p
                = npMaxLoop (minimaxNoPrune n) p (get_valid_moves b) b
                  INT_MIN := by
              simp [minimaxNoPrune, hgo, hemp]
            rw [e1, e2]
            exact abMaxLoop_le (minimax n) (minimaxNoPrune n) p beta
              (minimax_board n)
              (fun b' alpha' h => ihA b' alpha' beta false p h)
              (get_valid_moves b) b alpha INT_MIN hab
    · intro b alpha beta mx p hab
      by_cases hgo : is_game_over b = true
      · have e1 : minimax (n + 1) b alpha beta mx p
            = (evaluate_position b p, b) := by simp [minimax, hgo]
        have e2 : minimaxNoPrune (n + 1) b mx p = evaluate_position b p := by
          simp [minimaxNoPrune, hgo]
        rw [e1, e2]
        exact min_le_right beta _
      · by_cases hemp : (get_valid_moves b).isEmpty = true
        · have e1 : minimax (n + 1) b alpha beta mx p = (0, b) := by
            simp [minimax, hgo, hemp]
          have e2 : minimaxNoPrune (n + 1) b mx p = 0 := by
            simp [minimaxNoPrune, hgo, hemp]
          rw [e1, e2]
          exact min_le_right beta 0
        · cases mx with
          | false =>
            have e1 : minimax (n + 1) b alpha beta false p
                = abMinLoop (minimax n) p (opponentOf p) alpha
                  (get_valid_moves b) b beta INT_MAX := by
              simp [minimax, hgo, hemp]
            have e2 : minimaxNoPrune (n + 1) b false p
                = npMinLoop (minimaxNoPrune n) p (opponentOf p)
                  (get_valid_moves b) b INT_MAX := by
              simp [minimaxNoPrune, hgo, hemp]
            rw [e1, e2]
            exact abMinLoop_ge (minimax n) (minimaxNoPrune n) p (opponentOf p)
              alpha (minimax_board n)
              (fun b' beta' h => ihB b' alpha beta' true p h)
              (get_valid_moves b) b beta INT_MAX hab
          | true =>
            have e1 : minimax (n + 1) b alpha beta true p
                = abMaxLoop (minimax n) p beta (get_valid_moves b) b alpha
                  INT_MIN := by
              simp [minimax, hgo, hemp]
            have e2 : minimaxNoPrune (n + 1) b true p
                = npMaxLoop (minimaxNoPrune n) p (get_valid_moves b) b
                  INT_MIN := by
              simp [minimaxNoPrune, hgo, hemp]
            rw [e1, e2]
            exact abMaxLoop_ge (minimax n) (minimaxNoPrune n) p beta
              (minimax_board n)
              (fun b' alpha' h => ihB b' alpha' beta false p h)
              (get_valid_moves b) b alpha INT_MIN hab

theorem windowScoreSrc_le :
    ∀ p opp l0 l1 l2 l3 : Cell,
      windowScoreSrc p opp [l0, l1, l2, l3] ≤ 100 := by decide

theorem windowScoreSrc_ge :
    ∀ p opp l0 l1 l2 l3 : Cell,
      -100 ≤ windowScoreSrc p opp [l0, l1, l2, l3] := by decide

theorem sum_bound_ub {ι : Type} (s : Finset ι) (f : ι → Int) (B : Int)
    (h : ∀ i ∈ s, f i ≤ B) : ∑ i ∈ s, f i ≤ s.card * B := by
  calc ∑ i ∈ s, f i ≤ ∑ _i ∈ s, B := Finset.sum_le_sum h
  _ = s.card * B := by rw [Finset.sum_const, nsmul_eq_mul]

theorem sum_bound_lb {ι : Type} (s : Finset ι) (f : ι → Int) (B : Int)
    (h : ∀ i ∈ s, B ≤ f i) : s.card * B ≤ ∑ i ∈ s, f i := by
  calc s.card * B = ∑ _i ∈ s, B := by rw [Finset.sum_const, nsmul_eq_mul]
  _ ≤ ∑ i ∈ s, f i := Finset.sum_le_sum h

theorem evaluate_position_bound (b : Board) (p : Cell) :
    -6918 ≤ evaluate_position b p ∧ evaluate_position b p ≤ 6918 := by
  simp only [evaluate_position]
  have hH_ub : (∑ r ∈ Finset.range 6, ∑ c ∈ Finset.range 4,
      windowScoreSrc p (if p = cell_player1 then cell_player2
        else cell_player1)
      [cellN b r c, cellN b r (c+1), cellN b r (c+2), cellN b r (c+3)])
        ≤ 2400 := by
    refine le_trans (sum_bound_ub (Finset.range 6) _ 400 (fun r _ => ?_))
      (by norm_num)
    refine le_trans (sum_bound_ub (Finset.range 4) _ 100 (fun c _ => ?_))
      (by norm_num)
    exact windowScoreSrc_le _ _ _ _ _ _
  have hH_lb : (-2400 : Int) ≤ ∑ r ∈ Finset.range 6, ∑ c ∈ Finset.range 4,
      windowScoreSrc p (if p = cell_player1 then cell_player2
        else cell_player1)
      [cellN b r c, cellN b r (c+1), cellN b r (c+2), cellN b r (c+3)] := by
    refine le_trans (by norm_num)
      (sum_bound_lb (Finset.range 6) _ (-400) (fun r _ => ?_))
    refine le_trans (by norm_num)
      (sum_bound_lb (Finset.range 4) _ (-100) (fun c _ => ?_))
    exact windowScoreSrc_ge _ _ _ _ _ _
  have hV_ub : (∑ c ∈ Finset.range 7, ∑ r ∈ Finset.range 3,
      windowScoreSrc p (if p = cell_player1 then cell_player2
        else cell_player1)
      [cellN b r c, cellN b (r+1) c, cellN b (r+2) c, cellN b (r+3) c])
        ≤ 2100 := by
    refine le_trans (sum_bound_ub (Finset.range 7) _ 300 (fun c _ => ?_))
      (by norm_num)
    refine le_trans (sum_bound_ub (Finset.range 3) _ 100 (fun r _ => ?_))
      (by norm_num)
    exact windowScoreSrc_le _ _ _ _ _ _
  have hV_lb : (-2100 : Int) ≤ ∑ c ∈ Finset.range 7, ∑ r ∈ Finset.range 3,
      windowScoreSrc p (if p = cell_player1 then cell_player2
        else cell_player1)
      [cellN b r c, cellN b (r+1) c, cellN b (r+2) c, cellN b (r+3) c] := by
    refine le_trans (by norm_num)
      (sum_bound_lb (Finset.range 7) _ (-300) (fun c _ => ?_))
    refine le_trans (by norm_num)
      (sum_bound_lb (Finset.range 3) _ (-100) (fun r _ => ?_))
    exact windowScoreSrc_ge _ _ _ _ _ _
  have hD1_ub : (∑ r ∈ Finset.range 3, ∑ c ∈ Finset.range 4,
      windowScoreSrc p (if p = cell_player1 then cell_player2
        else cell_player1)
      [cellN b r c, cellN b (r+1) (c+1), cellN b (r+2) (c+2),
       cellN b (r+3) (c+3)]) ≤ 1200 := by
    refine le_trans (sum_bound_ub (Finset.range 3) _ 400 (fun r _ => ?_))
      (by norm_num)
    refine le_trans (sum_bound_ub (Finset.range 4) _ 100 (fun c _ => ?_))
      (by norm_num)
    exact windowScoreSrc_le _ _ _ _ _ _
  have hD1_lb : (-1200 : Int) ≤ ∑ r ∈ Finset.range 3, ∑ c ∈ Finset.range 4,
      windowScoreSrc p (if p = cell_player1 then cell_player2
        else cell_player1)
      [cellN b r c, cellN b (r+1) (c+1), cellN b (r+2) (c+2),
       cellN b (r+3) (c+3)] := by
    refine le_trans (by norm_num)
      (sum_bound_lb (Finset.range 3) _ (-400) (fun r _ => ?_))
    refine le_trans (by norm_num)
      (sum_bound_lb (Finset.range 4) _ (-100) (fun c _ => ?_))
    exact windowScoreSrc_ge _ _ _ _ _ _
  have hD2_ub : (∑ r ∈ Finset.range 3, ∑ c ∈ Finset.range 4,
      windowScoreSrc p (if p = cell_player1 then cell_player2
        else cell_player1)
      [cellN b (r+3) c, cellN b (r+2) (c+1), cellN b (r+1) (c+2),
       cellN b r (c+3)]) ≤ 1200 := by
    refine le_trans (sum_bound_ub (Finset.range 3) _ 400 (fun r _ => ?_))
      (by norm_num)
    refine le_trans (sum_bound_ub (Finset.range 4) _ 100 (fun c _ => ?_))
      (by norm_num)
    exact windowScoreSrc_le _ _ _ _ _ _
  have hD2_lb : (-1200 : Int) ≤ ∑ r ∈ Finset.range 3, ∑ c ∈ Finset.range 4,
      windowScoreSrc p (if p = cell_player1 then cell_player2
        else cell_player1)
      [cellN b (r+3) c, cellN b (r+2) (c+1), cellN b (r+1) (c+2),
       cellN b r (c+3)] := by
    refine le_trans (by norm_num)
      (sum_bound_lb (Finset.range 3) _ (-400) (fun r _ => ?_))
    refine le_trans (by norm_num)
      (sum_bound_lb (Finset.range 4) _ (-100) (fun c _ => ?_))
    exact windowScoreSrc_ge _ _ _ _ _ _
  have hC_ub : (∑ r ∈ Finset.range 6,
      (if cellN b r 3 = p then (3 : Int) else 0)) ≤ 18 := by
    refine le_trans (sum_bound_ub (Finset.range 6) _ 3 (fun r _ => ?_))
      (by norm_num)
    split <;> norm_num
  have hC_lb : (0 : Int) ≤ ∑ r ∈ Finset.range 6,
      (if cellN b r 3 = p then (3 : Int) else 0) :=
    Finset.sum_nonneg (fun r _ => by split <;> norm_num)
  constructor <;> linarith

theorem npMaxLoop_ub (rec : Board → Bool → Cell → Int) (p : Cell) (B : Int)
    (h : ∀ b' col, rec (make_move b' col p).2 false p ≤ B) :
    ∀ (cols : List (Fin 7)) (b : Board) (acc : Int),
      npMaxLoop rec p cols b acc ≤ max acc B := by
  intro cols
  induction cols with
  | nil => intro b acc; exact le_max_left acc B
  | cons col rest ih =>
    intro b acc
    refine le_trans (ih b _) (max_le ?_ (le_max_right acc B))
    exact max_le (le_max_left acc B) (le_trans (h b col) (le_max_right acc B))

theorem npMaxLoop_lb (rec : Board → Bool → Cell → Int) (p : Cell) (B : Int)
    (h : ∀ b' col, -B ≤ rec (make_move b' col p).2 false p) :
    ∀ (cols : List (Fin 7)) (b : Board) (acc : Int), cols ≠ [] →
      -B ≤ npMaxLoop rec p cols b acc := by
  intro cols
  cases cols with
  | nil => intro b acc hne; exact absurd rfl hne
  | cons col rest =>
    intro b acc _
    exact le_trans (le_trans (h b col) (le_max_right acc _))
      (npMaxLoop_ge_acc rec p rest b _)

theorem npMinLoop_lb (rec : Board → Bool → Cell → Int) (p opp : Cell)
    (B : Int) (h : ∀ b' col, -B ≤ rec (make_move b' col opp).2 true p) :
    ∀ (cols : List (Fin 7)) (b : Board) (acc : Int),
      min acc (-B) ≤ npMinLoop rec p opp cols b acc := by
  intro cols
  induction cols with
  | nil => intro b acc; exact min_le_left acc _
  | cons col rest ih =>
    intro b acc
    refine le_trans (le_min ?_ (min_le_right acc _)) (ih b _)
    exact le_min (min_le_left acc _)
      (le_trans (min_le_right acc _) (h b col))

theorem npMinLoop_ub (rec : Board → Bool → Cell → Int) (p opp : Cell)
    (B : Int) (h : ∀ b' col, rec (make_move b' col opp).2 true p ≤ B) :
    ∀ (cols : List (Fin 7)) (b : Board) (acc : Int), cols ≠ [] →
      npMinLoop rec p opp cols b acc ≤ B := by
  intro cols
  cases cols with
  | nil => intro b acc hne; exact absurd rfl hne
  | cons col rest =>
    intro b acc _
    exact le_trans (npMinLoop_le_acc rec p opp rest b _)
      (le_trans (min_le_right acc _) (h b col))

theorem minimaxNoPrune_bound :
    ∀ (d : Nat) (b : Board) (mx : Bool) (p : Cell),
      -6918 ≤ minimaxNoPrune d b mx p ∧ minimaxNoPrune d b mx p ≤ 6918 := by
  intro d
  induction d with
  | zero => intro b mx p; exact evaluate_position_bound b p
  | succ n ih =>
    intro b mx p
    by_cases hgo : is_game_over b = true
    · have e : minimaxNoPrune (n + 1) b mx p = evaluate_position b p := by
        simp [minimaxNoPrune, hgo]
      rw [e]
      exact evaluate_position_bound b p
    · by_cases hemp : (get_valid_moves b).isEmpty = true
      · have e : minimaxNoPrune (n + 1) b mx p = 0 := by
          simp [minimaxNoPrune, hgo, hemp]
        rw [e]
        norm_num
      · have hne : get_valid_moves b ≠ [] := by
          intro hnil
          rw [hnil] at hemp
          exact hemp rfl
        cases mx with
        | false =>
          have e : minimaxNoPrune (n + 1) b false p
              = npMinLoop (minimaxNoPrune n) p (opponentOf p)
                (get_valid_moves b) b INT_MAX := by
            simp [minimaxNoPrune, hgo, hemp]
          rw [e]
          constructor
          · have := npMinLoop_lb (minimaxNoPrune n) p (opponentOf p) 6918
              (fun b' col => (ih _ true p).1) (get_valid_moves b) b INT_MAX
            have hmin : min INT_MAX (-(6918 : Int)) = -6918 :=
              min_eq_right (by norm_num [INT_MAX])
            rwa [hmin] at this
          · exact npMinLoop_ub (minimaxNoPrune n) p (opponentOf p) 6918
              (fun b' col => (ih _ true p).2) (get_valid_moves b) b INT_MAX
              hne
        | true =>
          have e : minimaxNoPrune (n + 1) b true p
              = npMaxLoop (minimaxNoPrune n) p (get_valid_moves b) b
                INT_MIN := by
            simp [minimaxNoPrune, hgo, hemp]
          rw [e]
          constructor
          · exact npMaxLoop_lb (minimaxNoPrune n) p 6918
              (fun b' col => (ih _ false p).1) (get_valid_moves b) b INT_MIN
              hne
          · have := npMaxLoop_ub (minimaxNoPrune n) p 6918
              (fun b' col => (ih _ false p).2) (get_valid_moves b) b INT_MIN
            have hmax : max INT_MIN (6918 : Int) = 6918 :=
              max_eq_right (by norm_num [INT_MIN])
            rwa [hmax] at this

theorem minimax_eq_noprune (d : Nat) (b : Board) (mx : Bool) (p : Cell) :
    (minimax d b INT_MIN INT_MAX mx p).1 = minimaxNoPrune d b mx p := by
  have hb := minimaxNoPrune_bound d b mx p
  have hab : INT_MIN < INT_MAX := by norm_num [INT_MIN, INT_MAX]
  have hA := (minimax_squeeze d).1 b INT_MIN INT_MAX mx p hab
  have hB := (minimax_squeeze d).2 b INT_MIN INT_MAX mx p hab
  have h1 : max INT_MIN (minimaxNoPrune d b mx p)
      = minimaxNoPrune d b mx p :=
    max_eq_right (le_trans (by norm_num [INT_MIN]) hb.1)
  have h2 : min INT_MAX (minimaxNoPrune d b mx p)
      = minimaxNoPrune d b mx p :=
    min_eq_right (le_trans hb.2 (by norm_num [INT_MAX]))
  rw [h1] at hA
  rw [h2] at hB
  exact le_antisymm hA hB

theorem hardSelectLoop_eq (depth : Nat) :
    ∀ (cols : List (Fin 7)) (b : Board) (bs : Int) (bc : Fin 7),
      hardSelectLoop depth cols b bs bc
        = (hardSelectLoopNP depth cols b bs bc, b) := by
  intro cols
  induction cols with
  | nil => intros; rfl
  | cons col rest ih =>
    intro b bs bc
    have hval : (minimax depth (make_move b col cell_player2).2 INT_MIN
        INT_MAX false cell_player2).1
          = minimaxNoPrune depth (make_move b col cell_player2).2 false
            cell_player2 :=
      minimax_eq_noprune depth _ false cell_player2
    have hb2 : undo_move (minimax depth (make_move b col cell_player2).2
        INT_MIN INT_MAX false cell_player2).2 (make_move b col cell_player2).1
          col = b := by
      rw [minimax_board]
      exact make_move_undo b col cell_player2
    simp only [hardSelectLoop, hardSelectLoopNP, hb2, hval]
    split_ifs with h
    · exact ih b _ _
    · exact ih b _ _

/-- C2: at equal search depth, the Hard AI's alpha-beta search (`minimax`
called from `ai_hard_move`'s loop with the initial window
`[INT_MIN, INT_MAX]`) selects exactly the same column as the identical loop
scored by exhaustive minimax with no pruning, for every board; ties are
resolved identically (strict improvement keeps the first column in
ascending scan order), so pruning never changes the chosen move. -/
theorem c2_alphabeta_selects_same_column (b : Board) (depth : Nat) :
    hard_best_col b depth = hard_best_col_exhaustive b depth := by
  unfold hard_best_col hard_best_col_exhaustive
  rw [hardSelectLoop_eq]

/-! ## Claims C6 and C10: the medium AI -/

theorem trial_check_eq (b : Board) (r : Fin 6) (c : Fin 7) (p : Cell) :
    (check_winner (updateCell b r c p)
      ⟨(r.val : Int), (c.val : Int)⟩ p).getD false
      = fourThrough (updateCell b r c p) (r.val : Int) (c.val : Int) p := by
  have hcell : readCell (updateCell b r c p) (r.val : Int) (c.val : Int)
      = some p := by
    rw [readCell_fin, updateCell_self]
  rw [check_winner_eq _ _ _ hcell]
  rfl

theorem fwm_go_none (p : Cell) :
    ∀ (cols : List (Fin 7)) (b : Board),
      (∀ c ∈ cols, winsAt b p c = false) →
      find_winning_move_go p cols b = (⟨-1, -1⟩, b) := by
  intro cols
  induction cols with
  | nil => intro b _; rfl
  | cons c rest ih =>
    intro b hall
    have hc := hall c (List.mem_cons_self c rest)
    cases hr : lowestEmptyRow b c with
    | none =>
      rw [show find_winning_move_go p (c :: rest) b
        = find_winning_move_go p rest b from by
          simp [find_winning_move_go, hr]]
      exact ih b (fun c' hc' => hall c' (List.mem_cons_of_mem _ hc'))
    | some r =>
      have hft : fourThrough (updateCell b r c p) (r.val : Int)
          (c.val : Int) p = false := by
        unfold winsAt at hc
        rwa [hr] at hc
      have hcheck := trial_check_eq b r c p
      rw [hft] at hcheck
      have hrest := updateCell_undo (b := b) (r := r) (c := c) p
        (lowestEmptyRow_some hr).1
      rw [show find_winning_move_go p (c :: rest) b
        = find_winning_move_go p rest b from by
          simp [find_winning_move_go, hr, hcheck, hrest]]
      exact ih b (fun c' hc' => hall c' (List.mem_cons_of_mem _ hc'))

theorem fwm_go_some (p : Cell) :
    ∀ (cols : List (Fin 7)) (b : Board) (c : Fin 7),
      cols.find? (winsAt b p) = some c →
      ∃ r : Fin 6, lowestEmptyRow b c = some r ∧
        find_winning_move_go p cols b
          = (⟨(r.val : Int), (c.val : Int)⟩, b) := by
  intro cols
  induction cols with
  | nil => intro b c h; cases h
  | cons c0 rest ih =>
    intro b c h
    by_cases h0 : winsAt b p c0 = true
    · rw [List.find?_cons_of_pos _ h0] at h
      cases h
      unfold winsAt at h0
      cases hr : lowestEmptyRow b c0 with
      | none =>
        rw [hr] at h0
        simp at h0
      | some r =>
        rw [hr] at h0
        simp only [] at h0
        have h0' : fourThrough (updateCell b r c0 p) (r.val : Int)
            (c0.val : Int) p = true := h0
        have hcheck := trial_check_eq b r c0 p
        rw [h0'] at hcheck
        have hrest := updateCell_undo (b := b) (r := r) (c := c0) p
          (lowestEmptyRow_some hr).1
        exact ⟨r, rfl, by simp [find_winning_move_go, hr, hcheck, hrest]⟩
    · rw [List.find?_cons_of_neg _ h0] at h
      cases hr : lowestEmptyRow b c0 with
      | none =>
        obtain ⟨r, hrr, hgo⟩ := ih b c h
        refine ⟨r, hrr, ?_⟩
        rw [show find_winning_move_go p (c0 :: rest) b
          = find_winning_move_go p rest b from by
            simp [find_winning_move_go, hr]]
        exact hgo
      | some r0 =>
        have hft : fourThrough (updateCell b r0 c0 p) (r0.val : Int)
            (c0.val : Int) p = false := by
          unfold winsAt at h0
          rw [hr] at h0
          simpa using h0
        have hcheck := trial_check_eq b r0 c0 p
        rw [hft] at hcheck
        have hrest := updateCell_undo (b := b) (r := r0) (c := c0) p
          (lowestEmptyRow_some hr).1
        obtain ⟨r, hrr, hgo⟩ := ih b c h
        refine ⟨r, hrr, ?_⟩
        rw [show find_winning_move_go p (c0 :: rest) b
          = find_winning_move_go p rest b from by
            simp [find_winning_move_go, hr, hcheck, hrest]]
        exact hgo

theorem finRange_find?_exists {n : Nat} {p : Fin n → Bool}
    (h : ∃ c, p c = true) :
    ∃ c, (List.finRange n).find? p = some c := by
  cases hf : (List.finRange n).find? p with
  | some c => exact ⟨c, rfl⟩
  | none =>
    obtain ⟨c, hc⟩ := h
    have := List.find?_eq_none.mp hf c (List.mem_finRange c)
    exact absurd hc this

theorem finRange7_find?_first {p : Fin 7 → Bool} {c : Fin 7}
    (h : (List.finRange 7).find? p = some c) :
    p c = true ∧ ∀ j : Fin 7, j < c → p j = false := by
  have h' : (List.ofFn (fun i : Fin 7 => i)).find? p
      = some ((fun i : Fin 7 => i) c) := h
  rw [List.find?_ofFn_eq_some_of_injective (fun a b hh => hh)] at h'
  refine ⟨h'.1, fun j hj => ?_⟩
  have := h'.2 j hj
  simpa using this

theorem find_winning_move_cases (b : Board) (p : Cell) :
    find_winning_move b p = (⟨-1, -1⟩, b) ∨
    ∃ (c : Fin 7) (r : Fin 6), lowestEmptyRow b c = some r ∧
      find_winning_move b p = (⟨(r.val : Int), (c.val : Int)⟩, b) := by
  cases hf : (List.finRange 7).find? (winsAt b p) with
  | none =>
    left
    refine fwm_go_none p _ b (fun c _ => ?_)
    have := List.find?_eq_none.mp hf c (List.mem_finRange c)
    simpa using this
  | some c =>
    right
    obtain ⟨r, h1, h2⟩ := fwm_go_some p _ b c hf
    exact ⟨c, r, h1, h2⟩

/-- C6: whenever the AI (Player 2) has a column whose gravity drop
completes 4-in-a-row, `ai_medium_move` returns exactly that move — the
first winning column in ascending scan order, at its lowest empty row —
for every random stream (probability 1), before any later tier is
consulted. -/
theorem c6_medium_takes_winning_move (b : Board) (rng : Nat → Nat)
    (hwin : ∃ c : Fin 7, winsAt b cell_player2 c = true) :
    ∃ (c : Fin 7) (r : Fin 6),
      ai_medium_move b rng = ⟨(r.val : Int), (c.val : Int)⟩ ∧
      lowestEmptyRow b c = some r ∧
      fourThrough (updateCell b r c cell_player2) (r.val : Int) (c.val : Int)
        cell_player2 = true ∧
      (∀ c' : Fin 7, c' < c → winsAt b cell_player2 c' = false) := by
  obtain ⟨c0, hf⟩ := finRange_find?_exists hwin
  obtain ⟨hpc, hfirst⟩ := finRange7_find?_first hf
  obtain ⟨r, hrr, hgo⟩ := fwm_go_some cell_player2 (List.finRange 7) b c0 hf
  have hval : ((r.val : Int)) ≠ -1 := by
    have : (0 : Int) ≤ (r.val : Int) := Int.natCast_nonneg _
    omega
  refine ⟨c0, r, ?_, hrr, ?_, hfirst⟩
  · unfold ai_medium_move
    rw [show find_winning_move b cell_player2
      = (⟨(r.val : Int), (c0.val : Int)⟩, b) from hgo]
    simp [hval]
  · unfold winsAt at hpc
    rw [hrr] at hpc
    exact hpc

/-- Witness for C6: Player 2 has three in column 0 and the medium AI
completes the win there. -/
theorem c6_medium_takes_winning_move_witness :
    ∃ (c : Fin 7) (r : Fin 6),
      ai_medium_move c6_board (fun _ => 0)
        = ⟨(r.val : Int), (c.val : Int)⟩ ∧
      lowestEmptyRow c6_board c = some r ∧
      fourThrough (updateCell c6_board r c cell_player2) (r.val : Int)
        (c.val : Int) cell_player2 = true ∧
      (∀ c' : Fin 7, c' < c → winsAt c6_board cell_player2 c' = false) :=
  c6_medium_takes_winning_move c6_board (fun _ => 0) ⟨0, by decide⟩

theorem count_threats_nonneg (b : Board) (r : Fin 6) (c : Fin 7) (p : Cell) :
    0 ≤ (count_threats b r c p).1 := by
  simp only [count_threats]
  apply add_nonneg <;> split <;> positivity

theorem strategic_go_board (p : Cell) :
    ∀ (cols : List (Fin 7)) (b : Board) (bs : Int) (best : GameMove),
      (strategic_go p cols b bs best).2 = b := by
  intro cols
  induction cols with
  | nil => intros; rfl
  | cons c0 rest ih =>
    intro b bs best
    cases hr : lowestEmptyRow b c0 with
    | none => simp [strategic_go, hr, ih]
    | some r0 =>
      have hb2 : (count_threats b r0 c0 p).2 = b :=
        count_threats_board p (lowestEmptyRow_some hr).1
      simp only [strategic_go, hr, hb2]
      split_ifs <;> exact ih b _ _

theorem strategic_go_valid (p : Cell) :
    ∀ (cols : List (Fin 7)) (b : Board) (bs : Int) (best : GameMove),
      ((∃ (c : Fin 7) (r : Fin 6), lowestEmptyRow b c = some r ∧
          best = ⟨(r.val : Int), (c.val : Int)⟩) ∨
        (bs = -1 ∧ ∃ c ∈ cols, ∃ r : Fin 6, lowestEmptyRow b c = some r)) →
      ∃ (c : Fin 7) (r : Fin 6), lowestEmptyRow b c = some r ∧
        (strategic_go p cols b bs best).1
          = ⟨(r.val : Int), (c.val : Int)⟩ := by
  intro cols
  induction cols with
  | nil =>
    intro b bs best h
    rcases h with ⟨c, r, h1, h2⟩ | ⟨_, c, hc, _⟩
    · exact ⟨c, r, h1, h2⟩
    · cases hc
  | cons c0 rest ih =>
    intro b bs best h
    cases hr : lowestEmptyRow b c0 with
    | none =>
      have hstep : strategic_go p (c0 :: rest) b bs best
          = strategic_go p rest b bs best := by
        simp [strategic_go, hr]
      rw [hstep]
      apply ih
      rcases h with h | ⟨hbs, c, hcmem, r, hcr⟩
      · exact Or.inl h
      · rcases List.mem_cons.mp hcmem with rfl | hmem
        · rw [hr] at hcr; cases hcr
        · exact Or.inr ⟨hbs, c, hmem, r, hcr⟩
    | some r0 =>
      have hb2 : (count_threats b r0 c0 p).2 = b :=
        count_threats_board p (lowestEmptyRow_some hr).1
      simp only [strategic_go, hr, hb2]
      by_cases hup : bs < (count_threats b r0 c0 p).1 +
          (if c0.val = 3 then (3 : Int)
           else if c0.val = 2 ∨ c0.val = 4 then 2
           else if c0.val = 1 ∨ c0.val = 5 then 1
           else 0)
      · simp only [if_pos hup]
        exact ih b _ _ (Or.inl ⟨c0, r0, hr, rfl⟩)
      · simp only [if_neg hup]
        apply ih
        rcases h with h | ⟨hbs, _⟩
        · exact Or.inl h
        · exfalso
          apply hup
          rw [hbs]
          have h1 : 0 ≤ (count_threats b r0 c0 p).1 :=
            count_threats_nonneg b r0 c0 p
          have h2 : (0 : Int) ≤
              (if c0.val = 3 then (3 : Int)
               else if c0.val = 2 ∨ c0.val = 4 then 2
               else if c0.val = 1 ∨ c0.val = 5 then 1
               else 0) := by
            split_ifs <;> norm_num
          linarith

theorem swapIdx_apply (a : Fin 7 → Fin 7) (i j k : Fin 7) :
    swapIdx a i j k
      = if k = j then a i else if k = i then a j else a k := by
  unfold swapIdx
  rw [Function.update_apply, Function.update_apply]

theorem swapIdx_surj (a : Fin 7 → Fin 7) (ha : ∀ y, ∃ i, a i = y)
    (i j : Fin 7) : ∀ y, ∃ k, swapIdx a i j k = y := by
  intro y
  obtain ⟨k0, rfl⟩ := ha y
  by_cases h0 : k0 = j
  · refine ⟨i, ?_⟩
    rw [swapIdx_apply]
    by_cases hij : i = j
    · rw [if_pos hij, hij, ← h0]
    · rw [if_neg hij, if_pos rfl, h0]
  · by_cases h1 : k0 = i
    · refine ⟨j, ?_⟩
      rw [swapIdx_apply, if_pos rfl, h1]
    · refine ⟨k0, ?_⟩
      rw [swapIdx_apply, if_neg h0, if_neg h1]

theorem shuffledPreference_surj (rng : Nat → Nat) :
    ∀ y, ∃ i, shuffledPreference rng i = y := by
  have hgen : ∀ (l : List (Fin 7)) (a : Fin 7 → Fin 7),
      (∀ y, ∃ i, a i = y) → ∀ y, ∃ i,
        (l.foldl (fun acc i => swapIdx acc i
          ⟨rng (i.val + 1) % 7, Nat.mod_lt _ (by omega)⟩) a) i = y := by
    intro l
    induction l with
    | nil => intro a ha; exact ha
    | cons x xs ih => intro a ha; exact ih _ (swapIdx_surj a ha x _)
  exact hgen (List.finRange 7) center_preference (by decide)

theorem tier4_move_valid (b : Board) (a : Fin 7 → Fin 7)
    (hsurj : ∀ y, ∃ i, a i = y)
    (hne : ∃ (r : Fin 6) (c : Fin 7), b r c = cell_empty) :
    ∃ (r : Fin 6) (c : Fin 7), lowestEmptyRow b c = some r ∧
      tier4_move b a = ⟨(r.val : Int), (c.val : Int)⟩ := by
  obtain ⟨r0, c0, he⟩ := hne
  obtain ⟨r1, hr1⟩ := lowestEmptyRow_isSome_of_empty he
  obtain ⟨i0, hi0⟩ := hsurj c0
  cases hfs : (List.finRange 7).findSome? (fun i =>
      (lowestEmptyRow b (a i)).map
        (fun r => (⟨(r.val : Int), ((a i).val : Int)⟩ : GameMove))) with
  | none =>
    exfalso
    have := List.findSome?_eq_none_iff.mp hfs i0 (List.mem_finRange i0)
    rw [hi0, hr1] at this
    cases this
  | some mv =>
    obtain ⟨i, _, hfi⟩ := List.exists_of_findSome?_eq_some hfs
    cases hri : lowestEmptyRow b (a i) with
    | none => rw [hri] at hfi; cases hfi
    | some r =>
      rw [hri] at hfi
      have hmv : mv = ⟨(r.val : Int), ((a i).val : Int)⟩ :=
        (Option.some.inj hfi).symm
      refine ⟨r, a i, hri, ?_⟩
      simp [tier4_move, hfs, hmv]

/-- C10: on every board with at least one empty cell, `ai_medium_move`
returns a move whose row is in `[0, 5]` and column in `[0, 6]` (as `Fin`
values), addressing an empty cell that is the lowest empty row of its
column; the sentinel `{-1, -1}` is never returned, so the game loop's
unconditional write `board[move.row][move.column]` stays in bounds and
never overwrites an occupied cell. -/
theorem c10_medium_move_valid (b : Board) (rng : Nat → Nat)
    (hne : ∃ (r : Fin 6) (c : Fin 7), b r c = cell_empty) :
    ∃ (r : Fin 6) (c : Fin 7),
      ai_medium_move b rng = ⟨(r.val : Int), (c.val : Int)⟩ ∧
      b r c = cell_empty ∧
      ∀ r' : Fin 6, r < r' → b r' c ≠ cell_empty := by
  have hrow : ∀ r : Fin 6, ((r.val : Int)) ≠ -1 := by
    intro r
    have : (0 : Int) ≤ (r.val : Int) := Int.natCast_nonneg _
    omega
  obtain ⟨r0, c0, he0⟩ := hne
  obtain ⟨r1, hr1⟩ := lowestEmptyRow_isSome_of_empty he0
  rcases find_winning_move_cases b cell_player2 with hw | ⟨cw, rw1, hcrw, hw⟩
  · rcases find_winning_move_cases b cell_player1 with hbk | ⟨cb, rb, hcrb, hbk⟩
    · obtain ⟨cs, rs, hcrs, hs1⟩ :=
        strategic_go_valid cell_player2 (List.finRange 7) b (-1) ⟨-1, -1⟩
          (Or.inr ⟨rfl, c0, List.mem_finRange c0, r1, hr1⟩)
      have hs1' : (find_best_strategic_move b cell_player2).1
          = ⟨(rs.val : Int), (cs.val : Int)⟩ := hs1
      have hsb : (find_best_strategic_move b cell_player2).2 = b :=
        strategic_go_board cell_player2 (List.finRange 7) b (-1) ⟨-1, -1⟩
      by_cases h70 : rng 0 % 100 < 70
      · refine ⟨rs, cs, ?_, (lowestEmptyRow_some hcrs).1,
          (lowestEmptyRow_some hcrs).2⟩
        simp only [ai_medium_move, hw, hbk, hs1', hsb]
        simp [hrow rs, h70]
      · obtain ⟨r3, c3, hcr3, ht4⟩ :=
          tier4_move_valid b (shuffledPreference rng)
            (shuffledPreference_surj rng) ⟨r0, c0, he0⟩
        refine ⟨r3, c3, ?_, (lowestEmptyRow_some hcr3).1,
          (lowestEmptyRow_some hcr3).2⟩
        simp only [ai_medium_move, hw, hbk, hs1', hsb]
        simp [h70, ht4]
    · refine ⟨rb, cb, ?_, (lowestEmptyRow_some hcrb).1,
        (lowestEmptyRow_some hcrb).2⟩
      simp only [ai_medium_move, hw, hbk]
      simp [hrow rb]
  · refine ⟨rw1, cw, ?_, (lowestEmptyRow_some hcrw).1,
      (lowestEmptyRow_some hcrw).2⟩
    simp only [ai_medium_move, hw]
    simp [hrow rw1]

/-- Witness for C10: on the empty board the medium AI returns a legal
lowest-empty-row move. -/
theorem c10_medium_move_valid_witness :
    (∃ (r : Fin 6) (c : Fin 7), emptyBoard r c = cell_empty) ∧
    ∃ (r : Fin 6) (c : Fin 7),
      ai_medium_move emptyBoard (fun _ => 0)
        = ⟨(r.val : Int), (c.val : Int)⟩ ∧
      emptyBoard r c = cell_empty ∧
      ∀ r' : Fin 6, r < r' → emptyBoard r' c ≠ cell_empty :=
  ⟨by decide, c10_medium_move_valid emptyBoard (fun _ => 0) (by decide)⟩

/-- C7 counterexample: `ai_easy_move` is raw random-and-retry, not a draw
from the non-full columns.  On a board whose column 0 is full but whose
other 36 cells are empty, a random stream that keeps naming column 0
never returns a move (the recursion consumes the whole stream), so the
claimed guarantees — never selecting a full column and unconditional
termination — fail. -/
theorem c7_easy_raw_retry_counterexample :
    (∃ (r : Fin 6) (c : Fin 7), c4_full_board r c = cell_empty) ∧
    ai_easy_move c4_full_board [0, 7, 14] = none :=
  ⟨by decide, by decide⟩

/-- C7 (amended): what `ai_easy_move` does guarantee.  Any move it returns
addresses the lowest empty row of a non-full column (it never plays a full
column), and it does return a move as soon as some draw in the random
stream names a non-full column; but termination depends on the stream —
the retry recursion is on the raw draws, not on the non-full columns. -/
theorem c7_easy_retries_until_nonfull (b : Board) (rands : List Nat) :
    (∀ mv, ai_easy_move b rands = some mv →
      ∃ (r : Fin 6) (c : Fin 7), mv = ⟨(r.val : Int), (c.val : Int)⟩ ∧
        b r c = cell_empty ∧ ∀ r' : Fin 6, r < r' → b r' c ≠ cell_empty) ∧
    ((∃ k ∈ rands, ∃ r : Fin 6,
        b r ⟨k % 7, Nat.mod_lt _ (by omega)⟩ = cell_empty) →
      ∃ mv, ai_easy_move b rands = some mv) := by
  induction rands with
  | nil =>
    refine ⟨fun mv h => ?_, fun h => ?_⟩
    · cases h
    · obtain ⟨k, hk, _⟩ := h
      cases hk
  | cons k rest ih =>
    cases hr : lowestEmptyRow b ⟨k % 7, Nat.mod_lt _ (by omega)⟩ with
    | some row =>
      have hstep : ai_easy_move b (k :: rest)
          = some ⟨(row.val : Int), ((k % 7 : Nat) : Int)⟩ := by
        simp [ai_easy_move, hr]
      refine ⟨fun mv h => ?_, fun _ => ⟨_, hstep⟩⟩
      rw [hstep] at h
      cases h
      exact ⟨row, ⟨k % 7, Nat.mod_lt _ (by omega)⟩, rfl,
        (lowestEmptyRow_some hr).1, (lowestEmptyRow_some hr).2⟩
    | none =>
      have hstep : ai_easy_move b (k :: rest) = ai_easy_move b rest := by
        simp [ai_easy_move, hr]
      refine ⟨fun mv h => ih.1 mv (hstep ▸ h), fun h => ?_⟩
      rw [hstep]
      apply ih.2
      obtain ⟨k', hk', r', he'⟩ := h
      rcases List.mem_cons.mp hk' with rfl | hmem
      · exact absurd he' (lowestEmptyRow_eq_none_iff.mp hr r')
      · exact ⟨k', hmem, r', he'⟩

/-- Witness for C7 (amended): a draw naming the open column 1 makes the
easy AI return a move on the column-0-full board. -/
theorem c7_easy_retries_until_nonfull_witness :
    ∃ mv, ai_easy_move c4_full_board [8] = some mv :=
  (c7_easy_retries_until_nonfull c4_full_board [8]).2
    ⟨8, by decide, 0, by decide⟩

theorem pieceCount_update_le (b : Board) (r : Fin 6) (c : Fin 7)
    (q p : Cell) :
    pieceCount (updateCell b r c q) p
      ≤ pieceCount b p + (if q = p then 1 else 0) := by
  by_cases hq : q = p
  · rw [if_pos hq]
    have hsub : (Finset.univ.filter fun rc : Fin 6 × Fin 7 =>
        updateCell b r c q rc.1 rc.2 = p)
        ⊆ insert (r, c)
          (Finset.univ.filter fun rc : Fin 6 × Fin 7 => b rc.1 rc.2 = p) := by
      intro rc hrc
      rw [Finset.mem_filter] at hrc
      by_cases hcell : rc.1 = r ∧ rc.2 = c
      · exact Finset.mem_insert.mpr (Or.inl (Prod.ext hcell.1 hcell.2))
      · rw [updateCell_ne b r c q hcell] at hrc
        exact Finset.mem_insert_of_mem
          (Finset.mem_filter.mpr ⟨Finset.mem_univ _, hrc.2⟩)
    exact le_trans (Finset.card_le_card hsub) (Finset.card_insert_le _ _)
  · rw [if_neg hq, Nat.add_zero]
    refine Finset.card_le_card ?_
    intro rc hrc
    rw [Finset.mem_filter] at hrc
    by_cases hcell : rc.1 = r ∧ rc.2 = c
    · exfalso
      apply hq
      rw [← hrc.2, hcell.1, hcell.2, updateCell_self]
    · rw [updateCell_ne b r c q hcell] at hrc
      exact Finset.mem_filter.mpr ⟨Finset.mem_univ _, hrc.2⟩

theorem playMovesFrom_pieceCount (p : Cell) :
    ∀ (ms : List (Fin 7)) (b0 b : Board) (n : Nat),
      playMovesFrom b0 n ms = some b →
      pieceCount b p ≤ pieceCount b0 p + plyCountOf p n ms.length := by
  intro ms
  induction ms with
  | nil =>
    intro b0 b n h
    cases h
    simp [plyCountOf]
  | cons c rest ih =>
    intro b0 b n h
    cases hr : lowestEmptyRow b0 c with
    | none => simp [playMovesFrom, hr] at h
    | some r =>
      simp only [playMovesFrom, hr] at h
      have hstep := ih (updateCell b0 r c (plyPlayer n)) b (n + 1) h
      have hupd := pieceCount_update_le b0 r c (plyPlayer n) p
      simp only [List.length_cons, plyCountOf]
      by_cases hpp : plyPlayer n = p
      · rw [if_pos hpp] at hupd
        rw [if_pos hpp]
        omega
      · rw [if_neg hpp] at hupd
        rw [if_neg hpp]
        omega

theorem plyCountOf_le_half (p : Cell) :
    ∀ (len n : Nat), plyCountOf p n len ≤ (len + 1) / 2 := by
  intro len
  induction len using Nat.strong_induction_on with
  | _ len ih =>
    rcases len with _ | (_ | len)
    · intro n; simp [plyCountOf]
    · intro n
      simp only [plyCountOf]
      split_ifs <;> omega
    · intro n
      have hrec := ih len (by omega) (n + 1 + 1)
      have hneq : plyPlayer n ≠ plyPlayer (n + 1) := by
        unfold plyPlayer
        rcases Nat.mod_two_eq_zero_or_one n with h | h
        · rw [if_pos h, if_neg (by omega)]
          decide
        · rw [if_neg (by omega), if_pos (by omega)]
          decide
      simp only [plyCountOf]
      by_cases ha : plyPlayer n = p <;> by_cases hb : plyPlayer (n + 1) = p
      · exact absurd (ha.trans hb.symm) hneq
      · rw [if_pos ha, if_neg hb]; omega
      · rw [if_neg ha, if_pos hb]; omega
      · rw [if_neg ha, if_neg hb]; omega

theorem four_cells_le_pieceCount (b : Board) (p : Cell)
    (f : Fin 4 → Fin 6 × Fin 7) (hf : ∀ i, b (f i).1 (f i).2 = p)
    (hinj : Function.Injective f) : 4 ≤ pieceCount b p := by
  have h : (Finset.univ : Finset (Fin 4)).card
      ≤ (Finset.univ.filter fun rc : Fin 6 × Fin 7 => b rc.1 rc.2 = p).card :=
    Finset.card_le_card_of_injOn f
      (fun i _ => Finset.mem_filter.mpr ⟨Finset.mem_univ _, hf i⟩)
      (fun i _ j _ hij => hinj hij)
  simpa [pieceCount] using h

theorem windowAll_le_pieceCount (b : Board) (p : Cell) (r c dr dc : Int)
    (hd : dr = 1 ∨ dc = 1) (hw : windowAll b p r c dr dc = true) :
    4 ≤ pieceCount b p := by
  have hcell : ∀ i : Fin 4,
      readCell b (r + (i.val : Int) * dr) (c + (i.val : Int) * dc)
        = some p := by
    intro i
    have hmem : i.val ∈ List.range 4 := List.mem_range.mpr i.isLt
    exact of_decide_eq_true (List.all_eq_true.mp hw i.val hmem)
  have hin : ∀ i : Fin 4,
      inB (r + (i.val : Int) * dr) (c + (i.val : Int) * dc) :=
    fun i => inB_of_readCell (hcell i)
  refine four_cells_le_pieceCount b p
    (fun i => (⟨(r + (i.val : Int) * dr).toNat % 6, Nat.mod_lt _ (by omega)⟩,
      ⟨(c + (i.val : Int) * dc).toNat % 7, Nat.mod_lt _ (by omega)⟩)) ?_ ?_
  · intro i
    show b ⟨(r + (i.val : Int) * dr).toNat % 6, Nat.mod_lt _ (by omega)⟩
        ⟨(c + (i.val : Int) * dc).toNat % 7, Nat.mod_lt _ (by omega)⟩ = p
    obtain ⟨h1, h2, h3, h4⟩ := hin i
    have hr6 : (r + (i.val : Int) * dr).toNat % 6
        = (r + (i.val : Int) * dr).toNat := Nat.mod_eq_of_lt (by omega)
    have hc7 : (c + (i.val : Int) * dc).toNat % 7
        = (c + (i.val : Int) * dc).toNat := Nat.mod_eq_of_lt (by omega)
    have e1 : (⟨(r + (i.val : Int) * dr).toNat % 6,
          Nat.mod_lt _ (by omega)⟩ : Fin 6)
        = ⟨(r + (i.val : Int) * dr).toNat, by omega⟩ := Fin.ext hr6
    have e2 : (⟨(c + (i.val : Int) * dc).toNat % 7,
          Nat.mod_lt _ (by omega)⟩ : Fin 7)
        = ⟨(c + (i.val : Int) * dc).toNat, by omega⟩ := Fin.ext hc7
    rw [e1, e2]
    have h := hcell i
    rw [readCell, dif_pos (hin i)] at h
    exact Option.some.inj h
  · intro i j hij
    have h1 : (r + (i.val : Int) * dr).toNat % 6
        = (r + (j.val : Int) * dr).toNat % 6 :=
      congrArg (fun z : Fin 6 × Fin 7 => z.1.val) hij
    have h2 : (c + (i.val : Int) * dc).toNat % 7
        = (c + (j.val : Int) * dc).toNat % 7 :=
      congrArg (fun z : Fin 6 × Fin 7 => z.2.val) hij
    obtain ⟨hi1, hi2, hi3, hi4⟩ := hin i
    obtain ⟨hj1, hj2, hj3, hj4⟩ := hin j
    have hri : r + (i.val : Int) * dr = r + (j.val : Int) * dr := by omega
    have hci : c + (i.val : Int) * dc = c + (j.val : Int) * dc := by omega
    have hvij : (i.val : Int) = (j.val : Int) := by
      rcases hd with h | h
      · rw [h] at hri; omega
      · rw [h] at hci; omega
    exact Fin.ext (by exact_mod_cast hvij)

theorem existsFour_le_pieceCount {b : Board} {p : Cell}
    (h : existsFour b p = true) : 4 ≤ pieceCount b p := by
  unfold existsFour at h
  obtain ⟨r, _, h⟩ := List.any_eq_true.mp h
  obtain ⟨c, _, h⟩ := List.any_eq_true.mp h
  obtain ⟨d, hd, h⟩ := List.any_eq_true.mp h
  have hd' : d.1 = 1 ∨ d.2 = 1 := by
    simp [dirList] at hd
    rcases hd with rfl | rfl | rfl | rfl <;> simp
  exact windowAll_le_pieceCount b p _ _ _ _ hd' h

theorem fourThrough_le_pieceCount {b : Board} {p : Cell} {r c : Int}
    (h : fourThrough b r c p = true) : 4 ≤ pieceCount b p := by
  unfold fourThrough at h
  obtain ⟨d, hd, h⟩ := List.any_eq_true.mp h
  obtain ⟨k, _, h⟩ := List.any_eq_true.mp h
  have hd' : d.1 = 1 ∨ d.2 = 1 := by
    simp [dirList] at hd
    rcases hd with rfl | rfl | rfl | rfl <;> simp
  exact windowAll_le_pieceCount b p _ _ _ _ hd' h

/-- C8: the game loop's detector gate
`if (count_moves > 6) winner = check_winner(move, player);` loses no wins.
On every board reachable by at most 6 alternating legal drops from the
empty board, no player has a 4-in-a-row anywhere; consequently the gated
detector returns false on such a ply, and so would the ungated
`check_winner` on the move just made — invoking the detector only once at
least 7 plies have been played changes no outcome. -/
theorem c8_gated_detector_loses_no_wins (ms : List (Fin 7)) (b : Board)
    (hplay : playMoves ms = some b) (hlen : ms.length ≤ 6) :
    (∀ p, p ≠ cell_empty → existsFour b p = false) ∧
    (∀ (mv : GameMove) (p : Cell), p ≠ cell_empty →
      gatedWinnerCheck ms.length b mv p = false ∧
      (readCell b mv.row mv.column = some p →
        (check_winner b mv p).getD false = false)) := by
  have hpc : ∀ p, p ≠ cell_empty → pieceCount b p ≤ 3 := by
    intro p hp
    have h1 := playMovesFrom_pieceCount p ms emptyBoard b 0 hplay
    have h2 := plyCountOf_le_half p ms.length 0
    have h3 : pieceCount emptyBoard p = 0 := by
      rw [pieceCount, Finset.card_eq_zero, Finset.filter_eq_empty_iff]
      intro rc _
      simp only [emptyBoard]
      exact fun hh => hp hh.symm
    omega
  refine ⟨fun p hp => ?_, fun mv p hp => ⟨?_, fun hread => ?_⟩⟩
  · cases hef : existsFour b p with
    | false => rfl
    | true =>
      have h4 := existsFour_le_pieceCount hef
      have h5 := hpc p hp
      omega
  · unfold gatedWinnerCheck
    rw [if_neg (by omega)]
  · rw [check_winner_eq b mv p hread, Option.getD_some]
    cases hft : fourThrough b mv.row mv.column p with
    | false => rfl
    | true =>
      have h4 := fourThrough_le_pieceCount hft
      have h5 := hpc p hp
      omega

/-- Witness for C8: the 6-ply board with two three-high stacks has no
four-in-a-row and the detector — gated or not — reports no win. -/
theorem c8_gated_detector_loses_no_wins_witness :
    (∀ p, p ≠ cell_empty → existsFour c8_board p = false) ∧
    (∀ (mv : GameMove) (p : Cell), p ≠ cell_empty →
      gatedWinnerCheck c8_trace.length c8_board mv p = false ∧
      (readCell c8_board mv.row mv.column = some p →
        (check_winner c8_board mv p).getD false = false)) :=
  c8_gated_detector_loses_no_wins c8_trace c8_board (by decide) (by decide)
